import Mathlib

set_option autoImplicit false

/-!
Verification of the wordle_helper repository (wordle_helper.py).

Shallow embedding conventions:
* A Python `Word` is represented by its `full_word` as a `List Char`
  (the derived attributes `letters`, `positions`, `letter_counts` are the
  computable functions `List.toFinset`, `List.getD`, `List.count`).
  The `Word.__init__` invariant fixes the length at 5, so theorems carry
  `length = 5` hypotheses where they matter.
* Python dicts with keys 1..5 (`Mask.correct_positions`,
  `Mask.incorrect_positions`) are represented by functions `Fin 5 → _`;
  index `i : Fin 5` stands for Python position `i+1`.  `Mask.__init__`
  drops empty sets from `incorrect_positions`, so an absent key and an
  empty set are indistinguishable in every reachable state; we encode an
  absent key as `∅` (for `correct_positions`, as `none`).
* `Mask.max_occurrences` is a Python dict with arbitrary letter keys; it is
  represented as an association list `List (Char × Nat)` in insertion
  order, with `List.lookup` as dict access.  Reachable dicts have no
  duplicate keys (`NodupKeys` below).
* Raised Python exceptions are `Except` errors.  `Mask.__add__` mutates
  `self.incorrect_positions` in place (line 412-414 of the source), so its
  embedding `Mask.add` returns the result Mask *and* the post-state of the
  left operand.
-/

/-- Letters are characters, as in the source. -/
abbrev Letter := Char

/-- A Python `Word` is carried as the list of its characters. -/
abbrev Wd := List Char

/-!  ## Word.calculate_guess_results (source lines 98-139)

The loop walks `guessed_word.positions` (slots 1..5, left to right) keeping
`used_counts`.  We recurse over `guess.zip target` so each step sees the
guessed letter together with the target letter of the same slot, while
membership and `letter_counts` tests consult the whole target word. -/

/-- One pass of the scoring loop: `used` is the `used_counts` dict
(totalized with default 0, exactly like `used_counts.get(letter, 0)`). -/
def cgrAux (target : List Char) (used : Char → Nat) : List (Char × Char) → List Char
  | [] => []
  | (g, t) :: rest =>
    if g ∈ target then
      (if t = g then 'g'
       else if used g < target.count g then 'y'
       else 'b')
      :: cgrAux target (Function.update used g (used g + 1)) rest
    else
      'b' :: cgrAux target used rest

/-- Embedding of `Word.calculate_guess_results`: `target` plays `self`,
`guess` plays `guessed_word`. -/
def calculate_guess_results (target guess : List Char) : List Char :=
  cgrAux target (fun _ => 0) (guess.zip target)

/-- Scoring as worded by the spec (section 4.2): green on an exact match;
otherwise yellow when the letter occurs in the secret and the number of
non-black marks already given to that letter in this call is below the
secret's occurrence count; otherwise black.  `nb` counts the non-black
marks per letter.  This definition follows the spec's words and is
compared against `calculate_guess_results`. -/
def specScoreAux (target : List Char) (nb : Char → Nat) : List (Char × Char) → List Char
  | [] => []
  | (g, t) :: rest =>
    if t = g then
      'g' :: specScoreAux target (Function.update nb g (nb g + 1)) rest
    else if g ∈ target ∧ nb g < target.count g then
      'y' :: specScoreAux target (Function.update nb g (nb g + 1)) rest
    else
      'b' :: specScoreAux target nb rest

/-- Spec-worded scoring of a guess against a secret. -/
def spec_score (target guess : List Char) : List Char :=
  specScoreAux target (fun _ => 0) (guess.zip target)

/-- Number of non-black marks the result string assigns to occurrences of
letter `L` of the guess. -/
def nonBlackMarks (guess results : List Char) (L : Char) : Nat :=
  ((guess.zip results).filter (fun p => p.1 = L ∧ p.2 ≠ 'b')).length

/-! Refinement proof: the loop of `calculate_guess_results` agrees with the
spec-worded loop.  The invariant relates the code's `used_counts` (which
also counts black in-secret occurrences) to the spec's non-black count:
they agree until the letter's occurrences are exhausted, after which both
tests fail anyway. -/

theorem cgrAux_eq_specScoreAux (target : List Char) :
    ∀ (pairs : List (Char × Char)) (used nb : Char → Nat),
      (∀ p ∈ pairs, p.2 ∈ target) →
      (∀ L, nb L ≤ used L ∧ (used L = nb L ∨ target.count L ≤ nb L)) →
      cgrAux target used pairs = specScoreAux target nb pairs := by
  intro pairs
  induction pairs with
  | nil => intro used nb _ _; rfl
  | cons p rest ih =>
    intro used nb hmem hinv
    obtain ⟨g, t⟩ := p
    have ht : t ∈ target := hmem (g, t) (List.mem_cons_self _ _)
    by_cases hgt : g ∈ target
    · -- the guessed letter occurs in the target
      have hinvg := hinv g
      by_cases heq : t = g
      · -- green slot on both sides
        simp only [cgrAux, specScoreAux, if_pos hgt, if_pos heq]
        congr 1
        refine ih _ _ (fun q hq => hmem q (List.mem_cons_of_mem _ hq)) ?_
        intro L
        by_cases hL : L = g
        · subst hL
          simp only [Function.update_same]
          rcases hinvg.2 with h | h
          · omega
          · omega
        · simpa [Function.update_noteq hL] using hinv L
      · -- non-matching slot: both sides run the yellow test
        rcases hinvg.2 with hused | hsat
        · -- counters agree, the two tests coincide
          by_cases hy : nb g < target.count g
          · simp only [cgrAux, specScoreAux, if_pos hgt, if_neg heq, hused,
              if_pos hy, if_pos (And.intro hgt hy)]
            congr 1
            refine ih _ _ (fun q hq => hmem q (List.mem_cons_of_mem _ hq)) ?_
            intro L
            by_cases hL : L = g
            · subst hL
              simp only [Function.update_same]
              first
              | omega
              | simp
            · simpa [Function.update_noteq hL] using hinv L
          · have hny : ¬ (g ∈ target ∧ nb g < target.count g) := fun h => hy h.2
            simp only [cgrAux, specScoreAux, if_pos hgt, if_neg heq, hused,
              if_neg hy, if_neg hny]
            congr 1
            refine ih _ _ (fun q hq => hmem q (List.mem_cons_of_mem _ hq)) ?_
            intro L
            by_cases hL : L = g
            · subst hL
              simp only [Function.update_same]
              omega
            · simpa [Function.update_noteq hL] using hinv L
        · -- the letter is exhausted: both tests fail
          have hcodeb : ¬ used g < target.count g := by
            have := hinvg.1; omega
          have hspecb : ¬ (g ∈ target ∧ nb g < target.count g) := by
            intro h; omega
          simp only [cgrAux, specScoreAux, if_pos hgt, if_neg heq,
            if_neg hcodeb, if_neg hspecb]
          congr 1
          refine ih _ _ (fun q hq => hmem q (List.mem_cons_of_mem _ hq)) ?_
          intro L
          by_cases hL : L = g
          · subst hL
            simp only [Function.update_same]
            have := hinvg.1
            omega
          · simpa [Function.update_noteq hL] using hinv L
    · -- the guessed letter is absent: black on both sides
      have hne : t ≠ g := fun h => hgt (h ▸ ht)
      have hny : ¬ (g ∈ target ∧ nb g < target.count g) := fun h => hgt h.1
      simp only [cgrAux, specScoreAux, if_neg hgt, if_neg hne, if_neg hny]
      congr 1
      exact ih _ _ (fun q hq => hmem q (List.mem_cons_of_mem _ hq)) hinv

/-- Guessing the target against itself marks every slot green. -/
theorem cgrAux_self (target : List Char) :
    ∀ (pairs : List (Char × Char)) (used : Char → Nat),
      (∀ p ∈ pairs, p.2 ∈ target ∧ p.1 = p.2) →
      cgrAux target used pairs = List.replicate pairs.length 'g' := by
  intro pairs
  induction pairs with
  | nil => intro used _; rfl
  | cons p rest ih =>
    intro used h
    obtain ⟨g, t⟩ := p
    obtain ⟨ht, heq⟩ := h (g, t) (List.mem_cons_self _ _)
    have heq2 : g = t := heq
    have hg : g ∈ target := by simpa [heq2] using ht
    have htg : t = g := heq2.symm
    simp only [cgrAux, if_pos hg, if_pos htg, List.length_cons,
      List.replicate_succ]
    congr 1
    exact ih _ (fun q hq => h q (List.mem_cons_of_mem _ hq))

/-- Pairs of `zip W W` are diagonal. -/
theorem zip_self_eq_map (W : List Char) : W.zip W = W.map (fun a => (a, a)) := by
  induction W with
  | nil => rfl
  | cons a rest ih => simp [List.zip_cons_cons, ih]

/-- C4: the scoring pass proceeds over slots left to right, marking green on
an exact positional match, otherwise yellow when the letter occurs in the
secret and the number of non-black marks already given to it in this call
is below the secret's occurrence count, otherwise black
(`calculate_guess_results` agrees with the spec-worded `spec_score`);
in particular scoring a word against itself is all green, and the
"teeth"/"genie" and "teeth"/"epees" examples come out as "bgbby" and
"ybgbb". -/
theorem calculate_guess_results_matches_spec_scoring :
    (∀ S G : List Char, S.length = 5 → G.length = 5 →
      calculate_guess_results S G = spec_score S G)
    ∧ (∀ W : List Char, W.length = 5 →
      calculate_guess_results W W = List.replicate 5 'g')
    ∧ calculate_guess_results "teeth".toList "genie".toList = "bgbby".toList
    ∧ calculate_guess_results "teeth".toList "epees".toList = "ybgbb".toList := by
  refine ⟨?_, ?_, by decide, by decide⟩
  · intro S G _ _
    refine cgrAux_eq_specScoreAux S (G.zip S) _ _ ?_ ?_
    · intro p hp
      exact (List.of_mem_zip hp).2
    · intro L
      exact ⟨le_rfl, Or.inl rfl⟩
  · intro W hW
    have hlen : (W.zip W).length = 5 := by
      simp [List.length_zip, hW]
    rw [calculate_guess_results, cgrAux_self W (W.zip W) _ ?_, hlen]
    intro p hp
    rw [zip_self_eq_map] at hp
    obtain ⟨a, ha, rfl⟩ := List.mem_map.mp hp
    exact ⟨ha, rfl⟩

/-- Witness for `calculate_guess_results_matches_spec_scoring` at concrete
5-letter words. -/
theorem calculate_guess_results_matches_spec_scoring_witness :
    ("slate".toList.length = 5 ∧ "elite".toList.length = 5
      ∧ "teeth".toList.length = 5)
    ∧ calculate_guess_results "slate".toList "elite".toList
        = spec_score "slate".toList "elite".toList
    ∧ calculate_guess_results "teeth".toList "teeth".toList
        = List.replicate 5 'g' :=
  ⟨⟨by decide, by decide, by decide⟩,
   calculate_guess_results_matches_spec_scoring.1 _ _ (by decide) (by decide),
   calculate_guess_results_matches_spec_scoring.2.1 _ (by decide)⟩

/-- C1 fails on the code: against secret "slate", the guess "elite" is
scored "ygbgg", so the letter e collects two non-black marks although
min(count of e in "slate", count of e in "elite") = 1.  (Official Wordle
semantics would score "bgbgg": the lone e of the secret is claimed by the
green in slot 5.) -/
theorem calculate_guess_results_violates_conservation :
    calculate_guess_results "slate".toList "elite".toList = "ygbgg".toList
    ∧ nonBlackMarks "elite".toList
        (calculate_guess_results "slate".toList "elite".toList) 'e' = 2
    ∧ min ("slate".toList.count 'e') ("elite".toList.count 'e') = 1
    ∧ ¬ (nonBlackMarks "elite".toList
          (calculate_guess_results "slate".toList "elite".toList) 'e'
        ≤ min ("slate".toList.count 'e') ("elite".toList.count 'e')) := by
  decide

/-- Python `word[index]` on a list of characters, totalized with a dummy
default (all uses are guarded by length-5 facts). -/
def charAt (l : List Char) (n : Nat) : Char := l.getD n '?'

/-!  ## The Mask class (source lines 311-567) -/

/-- An association list represents a Python dict, so its keys are distinct. -/
abbrev NodupKeys (l : List (Letter × Nat)) : Prop := (l.map Prod.fst).Nodup

/-- Embedding of the `Mask` data (source lines 311-348).  `correct_letters`
is derived in `__init__` from the other fields and is defined below as a
function. -/
structure Mask where
  correct_positions : Fin 5 → Option Letter
  incorrect_positions : Fin 5 → Finset Letter
  incorrect_globals : Finset Letter
  max_occurrences : List (Letter × Nat)

namespace Mask

/-- Python `set(self.correct_positions.values())`. -/
def greens (m : Mask) : Finset Letter :=
  Finset.univ.biUnion fun i => (m.correct_positions i).toFinset

/-- Derived `correct_letters` (source lines 345-348): green letters plus
the union of all yellow letter sets. -/
def correct_letters (m : Mask) : Finset Letter :=
  m.greens ∪ Finset.univ.biUnion fun i => m.incorrect_positions i

end Mask

/-- Right-biased union at one key, Python `d1 | d2` where `d2` wins. -/
def optUnionR (x y : Option Letter) : Option Letter :=
  match y with
  | some v => some v
  | none => x

/-- Right-biased dict union, Python `d1 | d2` for association lists: the
keys of `d1` in order (values overridden by `d2` where present), then the
keys of `d2` that are new, in order. -/
def dictUnionR (a b : List (Letter × Nat)) : List (Letter × Nat) :=
  (a.map fun p => (p.1, (b.lookup p.1).getD p.2)) ++
    b.filter fun p => (a.lookup p.1).isNone

/-- Payload data of the three `ValueError`s raised by `Mask.__add__`
(the formatted message strings carry exactly these values). -/
inductive MergeError where
  | positions (conflicts : List (Fin 5))
  | wantedUnwanted (conflicts : Finset Letter)
  | occurrences (conflicts : List Letter)
  deriving DecidableEq

namespace Mask

/-- First conflict check of `Mask.__add__` (source lines 381-389): slots
whose green letters disagree. -/
def posConflicts (a b : Mask) : List (Fin 5) :=
  (List.finRange 5).filter fun i =>
    match a.correct_positions i, b.correct_positions i with
    | some x, some y => decide (x ≠ y)
    | _, _ => false

/-- Second conflict check of `Mask.__add__` (source lines 392-399):
letters green-required by one Mask and globally forbidden by the other. -/
def reqConflicts (a b : Mask) : Finset Letter :=
  (a.greens ∩ b.incorrect_globals) ∪ (b.greens ∩ a.incorrect_globals)

/-- Third conflict check of `Mask.__add__` (source lines 402-410): entries
of `self.max_occurrences` on whose value `other` disagrees. -/
def occConflicts (a b : Mask) : List (Letter × Nat) :=
  a.max_occurrences.filter fun p =>
    match b.max_occurrences.lookup p.1 with
    | some v => decide (v ≠ p.2)
    | none => false

/-- The slot-wise union the merge loop writes into
`self.incorrect_positions` (source lines 412-414). -/
def mergedIp (a b : Mask) : Fin 5 → Finset Letter := fun i =>
  a.incorrect_positions i ∪ b.incorrect_positions i

/-- Embedding of `Mask.__add__` (source lines 374-421).  The merge loop
writes through an alias of `self.incorrect_positions` (line 412-414), so
on success the embedding returns the combined Mask together with the
post-state of `self`, whose `incorrect_positions` now holds the slot-wise
union. -/
def add (a b : Mask) : Except MergeError (Mask × Mask) :=
  if posConflicts a b ≠ [] then .error (.positions (posConflicts a b)) else
  if reqConflicts a b ≠ ∅ then .error (.wantedUnwanted (reqConflicts a b)) else
  if occConflicts a b ≠ [] then
    .error (.occurrences ((occConflicts a b).map Prod.fst)) else
  .ok (⟨fun i => optUnionR (a.correct_positions i) (b.correct_positions i),
        mergedIp a b,
        a.incorrect_globals ∪ b.incorrect_globals,
        dictUnionR a.max_occurrences b.max_occurrences⟩,
      { a with incorrect_positions := mergedIp a b })

/-- Embedding of `Mask.is_word_accepted` (source lines 530-563). -/
def is_word_accepted (m : Mask) (w : Wd) : Bool :=
  m.correct_letters ⊆ w.toFinset
  && (m.incorrect_globals ∩ w.toFinset = ∅)
  && ((List.finRange 5).all fun i =>
    match m.correct_positions i with
    | some L => charAt w i.val = L
    | none => true)
  && ((List.finRange 5).all fun i => charAt w i.val ∉ m.incorrect_positions i)
  && (m.max_occurrences.all fun p => p.1 ∈ w.toFinset && w.count p.1 ≤ p.2)

/-- Embedding of `Mask.filter_words` (source lines 565-567). -/
def filter_words (m : Mask) (words : List Wd) : List Wd :=
  words.filter fun w => m.is_word_accepted w

/-- The index list `[i for i, l in enumerate(guessed_word) if l == guess_letter]`
computed for a black slot (source line 471). -/
def bIndices (guessed : List Char) (L : Char) : List Nat :=
  (List.range guessed.length).filter fun j => charAt guessed j = L

/-- The `all(wordle_results[i] == "b" for i in indices)` test of source
line 478. -/
def bAllBlack (results : List Char) (idxs : List Nat) : Bool :=
  idxs.all fun j => charAt results j = 'b'

/-- The `len([i for i in indices if wordle_results[i] != "b"])` count of
source lines 483-486: the letter's non-black occurrences. -/
def bNonBlackCount (results : List Char) (idxs : List Nat) : Nat :=
  (idxs.filter fun j => ¬ (charAt results j = 'b')).length

/-- One index step of the `Mask.from_wordle_results` loop (source lines
455-495); the accumulating dicts are carried as a Mask record.  The final
`else` of the source re-raises the validation error and is unreachable
because the wrapper has already validated `results`. -/
def fwrStep (guessed results : List Char) (st : Mask) (i : Fin 5) : Mask :=
  let L := charAt guessed i.val
  let r := charAt results i.val
  if r = 'g' then
    { st with correct_positions := Function.update st.correct_positions i (some L) }
  else if r = 'y' then
    { st with incorrect_positions :=
        Function.update st.incorrect_positions i (st.incorrect_positions i ∪ {L}) }
  else if r = 'b' then
    if (bIndices guessed L).length = 1 then
      { st with incorrect_globals := st.incorrect_globals ∪ {L} }
    else if bAllBlack results (bIndices guessed L) then
      { st with incorrect_globals := st.incorrect_globals ∪ {L} }
    else if (st.max_occurrences.lookup L).isNone then
      { st with max_occurrences := st.max_occurrences ++
          [(L, bNonBlackCount results (bIndices guessed L))] }
    else st
  else st

/-- The loop of `Mask.from_wordle_results` over slots 1..5. -/
def from_wordle_results_core (guessed results : List Char) : Mask :=
  (List.finRange 5).foldl (fwrStep guessed results)
    ⟨fun _ => none, fun _ => ∅, ∅, []⟩

/-- Embedding of `Mask.from_wordle_results` (source lines 426-502):
lower-case the inputs, validate the result string, then run the loop. -/
def from_wordle_results (guessed results : List Char) : Except String Mask :=
  let guessed := guessed.map Char.toLower
  let results := results.map Char.toLower
  if results.length ≠ 5 then
    .error "wordle_results must be a 5-char string or len-5 list of chars"
  else if (results.filter fun c => ¬ (c = 'g' ∨ c = 'y' ∨ c = 'b')) ≠ [] then
    .error "wordle_results must only contain g, y, or b"
  else
    .ok (from_wordle_results_core guessed results)

/-- Embedding of `Mask.info_guess_version` (source lines 504-528): greens
are cleared and banned globally; every previously-green slot forbids the
union of all currently-known yellow letters; `max_occurrences` is not
passed on, so it defaults to the empty dict. -/
def info_guess_version (m : Mask) : Mask :=
  { correct_positions := fun _ => none,
    incorrect_positions := fun i =>
      if (m.correct_positions i).isSome then
        Finset.univ.biUnion fun j => m.incorrect_positions j
      else m.incorrect_positions i,
    incorrect_globals := m.incorrect_globals ∪ m.greens,
    max_occurrences := [] }

/-- Embedding of `Mask.__eq__` (source lines 367-372): only
`correct_positions`, `incorrect_positions` and `incorrect_globals` are
compared; `max_occurrences` is ignored. -/
def eq (a b : Mask) : Bool :=
  decide (a.correct_positions = b.correct_positions)
  && decide (a.incorrect_positions = b.incorrect_positions)
  && decide (a.incorrect_globals = b.incorrect_globals)

end Mask

/-- The empty Mask: the left operand of the mutation counterexample,
Python `Mask()`. -/
def mutA : Mask := ⟨fun _ => none, fun _ => ∅, ∅, []⟩

/-- Right operand of the mutation counterexample, Python
`Mask(incorrect_positions = {1: set("a")})`. -/
def mutB : Mask := ⟨fun _ => none, fun i => if i = 0 then {'a'} else ∅, ∅, []⟩

/-- C2 fails on the code: `Mask.__add__` hands back a new Mask but also
mutates `self.incorrect_positions` through the alias taken at source line
412.  Merging the empty Mask with one that forbids letter a in slot 1
leaves the left operand with `incorrect_positions = {1: set("a")}`,
no longer empty. -/
theorem mask_add_mutates_left_operand :
    ((Mask.add mutA mutB).toOption.map fun p => p.2.incorrect_positions 0)
        = some {'a'}
    ∧ mutA.incorrect_positions 0 = ∅
    ∧ ({'a'} : Finset Letter) ≠ ∅ := by
  decide

/-- C9: `Mask.__eq__` compares only `correct_positions`,
`incorrect_positions` and `incorrect_globals`; two Masks agreeing on
those three fields compare equal even when their `max_occurrences`
differ. -/
theorem mask_eq_ignores_max_occurrences (a b : Mask)
    (h1 : a.correct_positions = b.correct_positions)
    (h2 : a.incorrect_positions = b.incorrect_positions)
    (h3 : a.incorrect_globals = b.incorrect_globals) :
    Mask.eq a b = true := by
  simp [Mask.eq, h1, h2, h3]

/-- Witness for `mask_eq_ignores_max_occurrences`: the empty Mask and the
empty Mask carrying the cap a ↦ 1 compare equal although their
`max_occurrences` differ. -/
theorem mask_eq_ignores_max_occurrences_witness :
    Mask.eq mutA { mutA with max_occurrences := [('a', 1)] } = true
    ∧ mutA.max_occurrences
      ≠ ({ mutA with max_occurrences := [('a', 1)] } : Mask).max_occurrences :=
  ⟨mask_eq_ignores_max_occurrences _ _ rfl rfl rfl, by decide⟩

/-- C10: `info_guess_version` never passes `max_occurrences` on (the
constructor call at source lines 521-528 omits it, so it defaults to the
empty dict), and the construction reads nothing from the operand's
`max_occurrences`, so any caps carried by the Mask are discarded and
cannot influence filtering through the information-seeking view. -/
theorem info_guess_version_drops_max_occurrences :
    (∀ m : Mask, (Mask.info_guess_version m).max_occurrences = [])
    ∧ ∀ (m : Mask) (mo : List (Letter × Nat)),
        Mask.info_guess_version { m with max_occurrences := mo }
          = Mask.info_guess_version m :=
  ⟨fun _ => rfl, fun _ _ => rfl⟩

/-!  ### Dict (association list) lemmas for `List.lookup` -/

theorem lookup_cons_eq (k : Letter) (w : Nat) (t : List (Letter × Nat)) :
    ((k, w) :: t).lookup k = some w := by
  simp [List.lookup]

theorem lookup_cons_ne {L k : Letter} (h : L ≠ k) (w : Nat)
    (t : List (Letter × Nat)) : ((k, w) :: t).lookup L = t.lookup L := by
  have hb : (L == k) = false := beq_eq_false_iff_ne.mpr h
  simp [List.lookup, hb]

theorem lookup_eq_some_of_mem :
    ∀ {l : List (Letter × Nat)}, NodupKeys l →
      ∀ {L : Letter} {v : Nat}, (L, v) ∈ l → l.lookup L = some v := by
  intro l
  induction l with
  | nil => intro _ L v h; cases h
  | cons p t ih =>
    intro hnd L v h
    obtain ⟨k, w⟩ := p
    simp only [NodupKeys, List.map_cons, List.nodup_cons] at hnd
    rcases List.mem_cons.mp h with heq | hmem
    · obtain ⟨h1, h2⟩ := Prod.ext_iff.mp heq
      dsimp at h1 h2
      subst h1
      subst h2
      exact lookup_cons_eq _ _ _
    · have hne : L ≠ k := by
        rintro rfl
        exact hnd.1 (List.mem_map.mpr ⟨(L, v), hmem, rfl⟩)
      rw [lookup_cons_ne hne]
      exact ih hnd.2 hmem

theorem mem_of_lookup_eq_some :
    ∀ {l : List (Letter × Nat)} {L : Letter} {v : Nat},
      l.lookup L = some v → (L, v) ∈ l := by
  intro l
  induction l with
  | nil => intro L v h; cases h
  | cons p t ih =>
    intro L v h
    obtain ⟨k, w⟩ := p
    by_cases hk : L = k
    · subst hk
      rw [lookup_cons_eq] at h
      obtain rfl : w = v := Option.some_inj.mp h
      exact List.mem_cons_self _ _
    · rw [lookup_cons_ne hk] at h
      exact List.mem_cons_of_mem _ (ih h)

theorem lookup_isSome_of_mem_keys :
    ∀ {l : List (Letter × Nat)} {k : Letter},
      k ∈ l.map Prod.fst → (l.lookup k).isSome := by
  intro l
  induction l with
  | nil => intro k h; cases h
  | cons p t ih =>
    intro k h
    obtain ⟨k', w⟩ := p
    by_cases hk : k = k'
    · subst hk
      rw [lookup_cons_eq]
      rfl
    · rw [lookup_cons_ne hk]
      simp only [List.map_cons, List.mem_cons] at h
      rcases h with h | h
      · exact absurd h hk
      · exact ih h

theorem lookup_append (l1 l2 : List (Letter × Nat)) (L : Letter) :
    (l1 ++ l2).lookup L =
      match l1.lookup L with
      | some v => some v
      | none => l2.lookup L := by
  induction l1 with
  | nil => rfl
  | cons p t ih =>
    obtain ⟨k, w⟩ := p
    by_cases hk : L = k
    · subst hk
      rw [List.cons_append, lookup_cons_eq, lookup_cons_eq]
    · rw [List.cons_append, lookup_cons_ne hk, lookup_cons_ne hk, ih]

theorem lookup_map_override (a b : List (Letter × Nat)) (L : Letter) :
    ((a.map fun p => (p.1, (b.lookup p.1).getD p.2)).lookup L) =
      match a.lookup L with
      | some v => some ((b.lookup L).getD v)
      | none => none := by
  induction a with
  | nil => rfl
  | cons p t ih =>
    obtain ⟨k, w⟩ := p
    simp only [List.map_cons]
    by_cases hk : L = k
    · subst hk
      rw [lookup_cons_eq, lookup_cons_eq]
    · rw [lookup_cons_ne hk, lookup_cons_ne hk, ih]

theorem lookup_filter_isNone (a b : List (Letter × Nat)) (L : Letter) :
    ((b.filter fun p => (a.lookup p.1).isNone).lookup L) =
      if (a.lookup L).isNone then b.lookup L else none := by
  induction b with
  | nil => simp
  | cons p t ih =>
    obtain ⟨k, w⟩ := p
    by_cases hkn : (a.lookup k).isNone
    · rw [List.filter_cons_of_pos (by simpa using hkn)]
      by_cases hk : L = k
      · subst hk
        rw [lookup_cons_eq, if_pos hkn, lookup_cons_eq]
      · rw [lookup_cons_ne hk, ih, lookup_cons_ne hk]
    · rw [List.filter_cons_of_neg (by simpa using hkn)]
      rw [ih]
      by_cases hk : L = k
      · subst hk
        rw [if_neg hkn, if_neg hkn]
      · by_cases hLn : (a.lookup L).isNone
        · rw [if_pos hLn, if_pos hLn, lookup_cons_ne hk]
        · rw [if_neg hLn, if_neg hLn]

theorem lookup_dictUnionR (a b : List (Letter × Nat)) (L : Letter) :
    (dictUnionR a b).lookup L =
      match a.lookup L with
      | some v => some ((b.lookup L).getD v)
      | none => b.lookup L := by
  rw [dictUnionR, lookup_append, lookup_map_override, lookup_filter_isNone]
  rcases h : a.lookup L with _ | v <;> simp [h]

theorem nodupKeys_dictUnionR {a b : List (Letter × Nat)}
    (ha : NodupKeys a) (hb : NodupKeys b) : NodupKeys (dictUnionR a b) := by
  have hmap : ((a.map fun p => (p.1, (b.lookup p.1).getD p.2)).map Prod.fst)
      = a.map Prod.fst := by
    rw [List.map_map]
    rfl
  rw [NodupKeys, dictUnionR, List.map_append, hmap]
  refine List.Nodup.append ha ?_ ?_
  · exact hb.sublist (List.Sublist.map _ (List.filter_sublist _))
  · intro k hk1 hk2
    have hsome := lookup_isSome_of_mem_keys (l := a) hk1
    obtain ⟨q, hq, hqk⟩ := List.mem_map.mp hk2
    have hnone : (a.lookup q.1).isNone := by
      simpa using (List.mem_filter.mp hq).2
    rw [hqk, Option.isNone_iff_eq_none] at hnone
    rw [hnone] at hsome
    cases hsome

/-!  ### Conflict characterizations of `Mask.__add__` (claim C3) -/

/-- Condition (1): the two Masks require different letters in some slot. -/
def PosConflict (a b : Mask) : Prop :=
  ∃ i x y, a.correct_positions i = some x ∧ b.correct_positions i = some y
    ∧ x ≠ y

/-- Condition (2): a letter green-required by one operand is globally
forbidden by the other. -/
def ReqForbidConflict (a b : Mask) : Prop :=
  ∃ L, (L ∈ a.greens ∧ L ∈ b.incorrect_globals)
    ∨ (L ∈ b.greens ∧ L ∈ a.incorrect_globals)

/-- Condition (3): the two Masks cap the occurrences of some letter at
different values. -/
def OccConflict (a b : Mask) : Prop :=
  ∃ L x y, a.max_occurrences.lookup L = some x
    ∧ b.max_occurrences.lookup L = some y ∧ x ≠ y

theorem posConflicts_ne_nil_iff (a b : Mask) :
    Mask.posConflicts a b ≠ [] ↔ PosConflict a b := by
  unfold Mask.posConflicts
  rw [Ne, List.filter_eq_nil_iff]
  push_neg
  constructor
  · rintro ⟨i, -, hp⟩
    revert hp
    rcases hx : a.correct_positions i with _ | x
      <;> rcases hy : b.correct_positions i with _ | y <;> simp
    intro hxy
    exact ⟨i, x, y, hx, hy, hxy⟩
  · rintro ⟨i, x, y, hx, hy, hxy⟩
    refine ⟨i, List.mem_finRange i, ?_⟩
    simp [hx, hy, hxy]

theorem reqConflicts_ne_empty_iff (a b : Mask) :
    Mask.reqConflicts a b ≠ ∅ ↔ ReqForbidConflict a b := by
  rw [← Finset.nonempty_iff_ne_empty]
  unfold Mask.reqConflicts ReqForbidConflict
  constructor
  · rintro ⟨L, hL⟩
    simp only [Finset.mem_union, Finset.mem_inter] at hL
    exact ⟨L, hL⟩
  · rintro ⟨L, h⟩
    refine ⟨L, ?_⟩
    simpa only [Finset.mem_union, Finset.mem_inter] using h

theorem occConflicts_ne_nil_iff (a b : Mask)
    (ha : NodupKeys a.max_occurrences) :
    Mask.occConflicts a b ≠ [] ↔ OccConflict a b := by
  unfold Mask.occConflicts
  rw [Ne, List.filter_eq_nil_iff]
  push_neg
  constructor
  · rintro ⟨p, hp, hpred⟩
    obtain ⟨L, x⟩ := p
    simp only at hpred
    revert hpred
    rcases hb : b.max_occurrences.lookup L with _ | y <;> simp
    intro hyx
    exact ⟨L, x, y, lookup_eq_some_of_mem ha hp, hb,
      fun h => hyx (h.symm : y = x)⟩
  · rintro ⟨L, x, y, hax, hby, hxy⟩
    refine ⟨(L, x), mem_of_lookup_eq_some hax, ?_⟩
    simp only
    rw [hby]
    simp
    exact fun h => hxy (h.symm : x = y)

theorem cp_agree_of_posConflicts_nil {a b : Mask}
    (h : Mask.posConflicts a b = []) :
    ∀ i x y, a.correct_positions i = some x → b.correct_positions i = some y
      → x = y := by
  intro i x y hx hy
  have := (List.filter_eq_nil_iff.mp h) i (List.mem_finRange i)
  rw [hx, hy] at this
  simpa using this

theorem mo_agree_of_occConflicts_nil {a b : Mask}
    (h : Mask.occConflicts a b = []) :
    ∀ L x y, a.max_occurrences.lookup L = some x
      → b.max_occurrences.lookup L = some y → x = y := by
  intro L x y hx hy
  have h2 := (List.filter_eq_nil_iff.mp h) (L, x) (mem_of_lookup_eq_some hx)
  simp only at h2
  rw [hy] at h2
  simp at h2
  exact h2.symm

/-- C3: `Mask.__add__` raises a conflict error exactly when (1) the masks
require different letters in the same slot, or (2) a letter green-required
by one is globally forbidden by the other, or (3) the masks cap some
letter's occurrences at different values; on success the result holds the
union of `correct_positions`, the slot-wise union of
`incorrect_positions`, the union of `incorrect_globals`, and the union of
`max_occurrences`. -/
theorem mask_add_conflict_iff_and_union (a b : Mask)
    (ha : NodupKeys a.max_occurrences) :
    ((∃ e, Mask.add a b = .error e)
        ↔ PosConflict a b ∨ ReqForbidConflict a b ∨ OccConflict a b)
    ∧ ∀ r a2, Mask.add a b = .ok (r, a2) →
        (∀ i L, r.correct_positions i = some L
            ↔ (a.correct_positions i = some L
               ∨ b.correct_positions i = some L))
        ∧ (∀ i, r.incorrect_positions i
            = a.incorrect_positions i ∪ b.incorrect_positions i)
        ∧ r.incorrect_globals = a.incorrect_globals ∪ b.incorrect_globals
        ∧ ∀ L v, r.max_occurrences.lookup L = some v
            ↔ (a.max_occurrences.lookup L = some v
               ∨ b.max_occurrences.lookup L = some v) := by
  constructor
  · by_cases h1 : Mask.posConflicts a b = []
    · by_cases h2 : Mask.reqConflicts a b = ∅
      · by_cases h3 : Mask.occConflicts a b = []
        · rw [Mask.add, if_neg (by simp [h1]), if_neg (by simp [h2]),
            if_neg (by simp [h3])]
          constructor
          · rintro ⟨e, he⟩
            cases he
          · rintro (hc | hc | hc)
            · exact absurd ((posConflicts_ne_nil_iff a b).mpr hc) (by simp [h1])
            · exact absurd ((reqConflicts_ne_empty_iff a b).mpr hc) (by simp [h2])
            · exact absurd ((occConflicts_ne_nil_iff a b ha).mpr hc) (by simp [h3])
        · rw [Mask.add, if_neg (by simp [h1]), if_neg (by simp [h2]), if_pos h3]
          simp only [Except.error.injEq]
          constructor
          · intro _
            exact Or.inr (Or.inr ((occConflicts_ne_nil_iff a b ha).mp h3))
          · intro _
            exact ⟨_, rfl⟩
      · rw [Mask.add, if_neg (by simp [h1]), if_pos h2]
        constructor
        · intro _
          exact Or.inr (Or.inl ((reqConflicts_ne_empty_iff a b).mp h2))
        · intro _
          exact ⟨_, rfl⟩
    · rw [Mask.add, if_pos h1]
      constructor
      · intro _
        exact Or.inl ((posConflicts_ne_nil_iff a b).mp h1)
      · intro _
        exact ⟨_, rfl⟩
  · intro r a2 h
    have h1 : Mask.posConflicts a b = [] := by
      by_contra h1
      rw [Mask.add, if_pos h1] at h
      cases h
    have h2 : Mask.reqConflicts a b = ∅ := by
      by_contra h2
      rw [Mask.add, if_neg (by simp [h1]), if_pos h2] at h
      cases h
    have h3 : Mask.occConflicts a b = [] := by
      by_contra h3
      rw [Mask.add, if_neg (by simp [h1]), if_neg (by simp [h2]),
        if_pos h3] at h
      cases h
    rw [Mask.add, if_neg (by simp [h1]), if_neg (by simp [h2]),
      if_neg (by simp [h3])] at h
    injection h with hpair
    injection hpair with hr ha2
    subst hr
    refine ⟨?_, fun i => rfl, rfl, ?_⟩
    · intro i L
      have hag := cp_agree_of_posConflicts_nil h1
      show optUnionR (a.correct_positions i) (b.correct_positions i) = some L
        ↔ (a.correct_positions i = some L ∨ b.correct_positions i = some L)
      rcases hy : b.correct_positions i with _ | y
      · simp [optUnionR]
      · simp only [optUnionR, Option.some.injEq]
        constructor
        · exact fun h => Or.inr h
        · rintro (hL | hL)
          · exact (hag i L y hL hy).symm
          · exact hL
    · intro L v
      have hag := mo_agree_of_occConflicts_nil h3
      rw [lookup_dictUnionR]
      rcases hA : a.max_occurrences.lookup L with _ | x
        <;> rcases hB : b.max_occurrences.lookup L with _ | y <;> simp
      have hxy := hag L x y hA hB
      subst hxy
      tauto

/-- Witness for `mask_add_conflict_iff_and_union` at concrete Masks. -/
theorem mask_add_conflict_iff_and_union_witness :
    NodupKeys mutA.max_occurrences
    ∧ ((∃ e, Mask.add mutA mutB = .error e)
        ↔ PosConflict mutA mutB ∨ ReqForbidConflict mutA mutB
          ∨ OccConflict mutA mutB) :=
  ⟨by decide, (mask_add_conflict_iff_and_union mutA mutB (by decide)).1⟩


/-!  ### Slot-wise characterization of the `from_wordle_results` loop -/

theorem fwrStep_correct_positions (guessed results : List Char) (st : Mask)
    (j i : Fin 5) :
    (Mask.fwrStep guessed results st j).correct_positions i =
      if j = i ∧ charAt results j.val = 'g'
      then some (charAt guessed j.val)
      else st.correct_positions i := by
  by_cases hg : charAt results j.val = 'g'
  · by_cases hj : j = i
    · subst hj
      simp [Mask.fwrStep, hg]
    · simp [Mask.fwrStep, hg, hj, Function.update_noteq (fun h => hj h.symm)]
  · by_cases hy : charAt results j.val = 'y'
    · simp [Mask.fwrStep, hy, hg]
    · by_cases hb : charAt results j.val = 'b'
      · simp only [Mask.fwrStep, if_neg hg, if_neg hy, if_pos hb,
          if_neg (fun h : j = i ∧ _ => hg h.2)]
        split_ifs <;> rfl
      · simp [Mask.fwrStep, hg, hy, hb]

theorem fwrStep_incorrect_positions (guessed results : List Char) (st : Mask)
    (j i : Fin 5) :
    (Mask.fwrStep guessed results st j).incorrect_positions i =
      if j = i ∧ charAt results j.val = 'y'
      then st.incorrect_positions i ∪ {charAt guessed j.val}
      else st.incorrect_positions i := by
  by_cases hy : charAt results j.val = 'y'
  · have hg : ¬ charAt results j.val = 'g' := by rw [hy]; decide
    by_cases hj : j = i
    · subst hj
      simp [Mask.fwrStep, hy, hg]
    · simp [Mask.fwrStep, hy, hg, hj, Function.update_noteq (fun h => hj h.symm)]
  · by_cases hg : charAt results j.val = 'g'
    · simp [Mask.fwrStep, hg, hy]
    · by_cases hb : charAt results j.val = 'b'
      · simp only [Mask.fwrStep, if_neg hg, if_neg hy, if_pos hb,
          if_neg (fun h : j = i ∧ _ => hy h.2)]
        split_ifs <;> rfl
      · simp [Mask.fwrStep, hg, hy, hb]

theorem fwrStep_incorrect_globals (guessed results : List Char) (st : Mask)
    (j : Fin 5) :
    (Mask.fwrStep guessed results st j).incorrect_globals =
      if charAt results j.val = 'b'
          ∧ ((Mask.bIndices guessed (charAt guessed j.val)).length = 1
             ∨ Mask.bAllBlack results (Mask.bIndices guessed (charAt guessed j.val)) = true)
      then st.incorrect_globals ∪ {charAt guessed j.val}
      else st.incorrect_globals := by
  by_cases hb : charAt results j.val = 'b'
  · have hg : ¬ charAt results j.val = 'g' := by rw [hb]; decide
    have hy : ¬ charAt results j.val = 'y' := by rw [hb]; decide
    by_cases h1 : (Mask.bIndices guessed (charAt guessed j.val)).length = 1
    · simp [Mask.fwrStep, hb, hg, hy, h1]
    · by_cases h2 :
          Mask.bAllBlack results (Mask.bIndices guessed (charAt guessed j.val)) = true
      · simp [Mask.fwrStep, hb, hg, hy, h1, h2]
      · simp only [Mask.fwrStep, if_neg hg, if_neg hy, if_pos hb, if_neg h1,
          if_neg h2,
          if_neg (fun h : _ ∧ (_ ∨ _) =>
            Or.elim h.2 (fun h' => h1 h') (fun h' => h2 h'))]
        split_ifs <;> rfl
  · by_cases hg : charAt results j.val = 'g'
    · simp [Mask.fwrStep, hg, hb]
    · by_cases hy : charAt results j.val = 'y'
      · simp [Mask.fwrStep, hy, hg, hb]
      · simp [Mask.fwrStep, hg, hy, hb]

theorem fwrStep_max_occurrences (guessed results : List Char) (st : Mask)
    (j : Fin 5) (L' : Letter) :
    (Mask.fwrStep guessed results st j).max_occurrences.lookup L' =
      if charAt results j.val = 'b'
          ∧ ¬((Mask.bIndices guessed (charAt guessed j.val)).length = 1
              ∨ Mask.bAllBlack results (Mask.bIndices guessed (charAt guessed j.val)) = true)
          ∧ charAt guessed j.val = L'
          ∧ st.max_occurrences.lookup L' = none
      then some (Mask.bNonBlackCount results (Mask.bIndices guessed (charAt guessed j.val)))
      else st.max_occurrences.lookup L' := by
  by_cases hb : charAt results j.val = 'b'
  · have hg : ¬ charAt results j.val = 'g' := by rw [hb]; decide
    have hy : ¬ charAt results j.val = 'y' := by rw [hb]; decide
    by_cases h1 : (Mask.bIndices guessed (charAt guessed j.val)).length = 1
    · simp [Mask.fwrStep, hb, hg, hy, h1]
    · by_cases h2 :
          Mask.bAllBlack results (Mask.bIndices guessed (charAt guessed j.val)) = true
      · simp [Mask.fwrStep, hb, hg, hy, h1, h2]
      · have hnor : ¬ ((Mask.bIndices guessed (charAt guessed j.val)).length = 1
            ∨ Mask.bAllBlack results (Mask.bIndices guessed (charAt guessed j.val)) = true) :=
          fun h => Or.elim h (fun h' => h1 h') (fun h' => h2 h')
        by_cases hL : charAt guessed j.val = L'
        · by_cases h3 : st.max_occurrences.lookup L' = none
          · have h3' : (st.max_occurrences.lookup (charAt guessed j.val)).isNone := by
              rw [hL, h3]
              rfl
            simp only [Mask.fwrStep, if_neg hg, if_neg hy, if_pos hb, if_neg h1,
              if_neg h2, if_pos h3', if_pos (And.intro hb (And.intro hnor (And.intro hL h3)))]
            show (st.max_occurrences ++ _).lookup L' = _
            rw [lookup_append, h3, ← hL]
            exact lookup_cons_eq _ _ _
          · have h3' : ¬ (st.max_occurrences.lookup (charAt guessed j.val)).isNone = true := by
              rw [hL]
              simpa [Option.isNone_iff_eq_none] using h3
            simp only [Mask.fwrStep, if_neg hg, if_neg hy, if_pos hb, if_neg h1,
              if_neg h2, if_neg h3',
              if_neg (fun h : _ ∧ _ ∧ _ ∧ _ => h3 h.2.2.2)]
        · by_cases h3 : (st.max_occurrences.lookup (charAt guessed j.val)).isNone = true
          · simp only [Mask.fwrStep, if_neg hg, if_neg hy, if_pos hb, if_neg h1,
              if_neg h2, if_pos h3,
              if_neg (fun h : _ ∧ _ ∧ _ ∧ _ => hL h.2.2.1)]
            show (st.max_occurrences ++ _).lookup L' = _
            rw [lookup_append]
            rcases hsl : st.max_occurrences.lookup L' with _ | v
            · exact lookup_cons_ne (fun h => hL h.symm) _ _
            · rfl
          · simp only [Mask.fwrStep, if_neg hg, if_neg hy, if_pos hb, if_neg h1,
              if_neg h2, if_neg h3,
              if_neg (fun h : _ ∧ _ ∧ _ ∧ _ => hL h.2.2.1)]
  · by_cases hg : charAt results j.val = 'g'
    · simp [Mask.fwrStep, hg, hb]
    · by_cases hy : charAt results j.val = 'y'
      · simp [Mask.fwrStep, hy, hg, hb]
      · simp [Mask.fwrStep, hg, hy, hb]

theorem fwr_foldl_correct_positions (guessed results : List Char) :
    ∀ (l : List (Fin 5)) (st : Mask) (i : Fin 5),
      ((l.foldl (Mask.fwrStep guessed results) st).correct_positions i) =
        if i ∈ l ∧ charAt results i.val = 'g'
        then some (charAt guessed i.val)
        else st.correct_positions i := by
  intro l
  induction l with
  | nil => intro st i; simp
  | cons j rest ih =>
    intro st i
    rw [List.foldl_cons, ih, fwrStep_correct_positions]
    by_cases hg : charAt results i.val = 'g'
    · by_cases hmem : i ∈ rest
      · rw [if_pos (show i ∈ rest ∧ charAt results i.val = 'g' from ⟨hmem, hg⟩),
          if_pos (show i ∈ j :: rest ∧ charAt results i.val = 'g' from
            ⟨List.mem_cons_of_mem _ hmem, hg⟩)]
      · rw [if_neg (show ¬ (i ∈ rest ∧ charAt results i.val = 'g') from
          fun h => hmem h.1)]
        by_cases hj : j = i
        · rw [if_pos (show j = i ∧ charAt results j.val = 'g' from
            ⟨hj, hj.symm ▸ hg⟩),
            if_pos (show i ∈ j :: rest ∧ charAt results i.val = 'g' from
              ⟨List.mem_cons.mpr (Or.inl hj.symm), hg⟩), hj]
        · rw [if_neg (show ¬ (j = i ∧ charAt results j.val = 'g') from
            fun h => hj h.1),
            if_neg (show ¬ (i ∈ j :: rest ∧ charAt results i.val = 'g') from
              fun h => (List.mem_cons.mp h.1).elim (fun h' => hj h'.symm) hmem)]
    · rw [if_neg (show ¬ (i ∈ rest ∧ charAt results i.val = 'g') from
        fun h => hg h.2),
        if_neg (show ¬ (j = i ∧ charAt results j.val = 'g') from
          fun h => hg (h.1 ▸ h.2)),
        if_neg (show ¬ (i ∈ j :: rest ∧ charAt results i.val = 'g') from
          fun h => hg h.2)]

theorem fwr_foldl_incorrect_positions (guessed results : List Char) :
    ∀ (l : List (Fin 5)), l.Nodup → ∀ (st : Mask) (i : Fin 5),
      ((l.foldl (Mask.fwrStep guessed results) st).incorrect_positions i) =
        if i ∈ l ∧ charAt results i.val = 'y'
        then st.incorrect_positions i ∪ {charAt guessed i.val}
        else st.incorrect_positions i := by
  intro l
  induction l with
  | nil => intro _ st i; simp
  | cons j rest ih =>
    intro hnd st i
    rw [List.nodup_cons] at hnd
    rw [List.foldl_cons, ih hnd.2, fwrStep_incorrect_positions]
    by_cases hy : charAt results i.val = 'y'
    · by_cases hmem : i ∈ rest
      · have hji : ¬ j = i := fun h => hnd.1 (h ▸ hmem)
        rw [if_pos (show i ∈ rest ∧ charAt results i.val = 'y' from ⟨hmem, hy⟩),
          if_neg (show ¬ (j = i ∧ charAt results j.val = 'y') from
            fun h => hji h.1),
          if_pos (show i ∈ j :: rest ∧ charAt results i.val = 'y' from
            ⟨List.mem_cons_of_mem _ hmem, hy⟩)]
      · rw [if_neg (show ¬ (i ∈ rest ∧ charAt results i.val = 'y') from
          fun h => hmem h.1)]
        by_cases hj : j = i
        · rw [if_pos (show j = i ∧ charAt results j.val = 'y' from
            ⟨hj, hj.symm ▸ hy⟩),
            if_pos (show i ∈ j :: rest ∧ charAt results i.val = 'y' from
              ⟨List.mem_cons.mpr (Or.inl hj.symm), hy⟩), hj]
        · rw [if_neg (show ¬ (j = i ∧ charAt results j.val = 'y') from
            fun h => hj h.1),
            if_neg (show ¬ (i ∈ j :: rest ∧ charAt results i.val = 'y') from
              fun h => (List.mem_cons.mp h.1).elim (fun h' => hj h'.symm) hmem)]
    · rw [if_neg (show ¬ (i ∈ rest ∧ charAt results i.val = 'y') from
        fun h => hy h.2),
        if_neg (show ¬ (j = i ∧ charAt results j.val = 'y') from
          fun h => hy (h.1 ▸ h.2)),
        if_neg (show ¬ (i ∈ j :: rest ∧ charAt results i.val = 'y') from
          fun h => hy h.2)]

theorem fwr_foldl_incorrect_globals (guessed results : List Char) :
    ∀ (l : List (Fin 5)) (st : Mask) (L : Letter),
      (L ∈ (l.foldl (Mask.fwrStep guessed results) st).incorrect_globals) ↔
        L ∈ st.incorrect_globals
        ∨ ∃ j ∈ l, charAt results j.val = 'b'
            ∧ charAt guessed j.val = L
            ∧ ((Mask.bIndices guessed L).length = 1
               ∨ Mask.bAllBlack results (Mask.bIndices guessed L) = true) := by
  intro l
  induction l with
  | nil => intro st L; simp
  | cons j rest ih =>
    intro st L
    rw [List.foldl_cons, ih, fwrStep_incorrect_globals]
    by_cases hc : charAt results j.val = 'b'
        ∧ ((Mask.bIndices guessed (charAt guessed j.val)).length = 1
           ∨ Mask.bAllBlack results (Mask.bIndices guessed (charAt guessed j.val)) = true)
    · rw [if_pos hc]
      simp only [Finset.mem_union, Finset.mem_singleton, List.exists_mem_cons_iff]
      constructor
      · rintro ((h | h) | h)
        · exact Or.inl h
        · exact Or.inr (Or.inl ⟨hc.1, h.symm, by rw [h]; exact hc.2⟩)
        · exact Or.inr (Or.inr h)
      · rintro (h | (h | h))
        · exact Or.inl (Or.inl h)
        · exact Or.inl (Or.inr h.2.1.symm)
        · exact Or.inr h
    · rw [if_neg hc]
      simp only [List.exists_mem_cons_iff]
      constructor
      · rintro (h | h)
        · exact Or.inl h
        · exact Or.inr (Or.inr h)
      · rintro (h | (h | h))
        · exact Or.inl h
        · exact absurd ⟨h.1, by rw [h.2.1]; exact h.2.2⟩ hc
        · exact Or.inr h

theorem fwr_foldl_max_occurrences (guessed results : List Char) :
    ∀ (l : List (Fin 5)) (st : Mask) (L : Letter),
      ((l.foldl (Mask.fwrStep guessed results) st).max_occurrences.lookup L) =
        if st.max_occurrences.lookup L = none
        then
          if ∃ j ∈ l, charAt results j.val = 'b'
              ∧ charAt guessed j.val = L
              ∧ ¬((Mask.bIndices guessed L).length = 1
                  ∨ Mask.bAllBlack results (Mask.bIndices guessed L) = true)
          then some (Mask.bNonBlackCount results (Mask.bIndices guessed L))
          else none
        else st.max_occurrences.lookup L := by
  intro l
  induction l with
  | nil =>
    intro st L
    by_cases hst : st.max_occurrences.lookup L = none
    · rw [List.foldl_nil, if_pos hst, if_neg (by simp), hst]
    · rw [List.foldl_nil, if_neg hst]
  | cons j rest ih =>
    intro st L
    rw [List.foldl_cons, ih, fwrStep_max_occurrences]
    by_cases hst : st.max_occurrences.lookup L = none
    · by_cases hPj : charAt results j.val = 'b'
          ∧ charAt guessed j.val = L
          ∧ ¬((Mask.bIndices guessed L).length = 1
              ∨ Mask.bAllBlack results (Mask.bIndices guessed L) = true)
      · rw [hPj.2.1,
          if_pos (show charAt results j.val = 'b'
            ∧ ¬((Mask.bIndices guessed L).length = 1
                ∨ Mask.bAllBlack results (Mask.bIndices guessed L) = true)
            ∧ L = L ∧ st.max_occurrences.lookup L = none from
            ⟨hPj.1, hPj.2.2, rfl, hst⟩),
          if_neg (show ¬ (some (Mask.bNonBlackCount results (Mask.bIndices guessed L))
              = none) from fun h => Option.noConfusion h),
          if_pos hst,
          if_pos (show ∃ x ∈ j :: rest, charAt results x.val = 'b'
              ∧ charAt guessed x.val = L
              ∧ ¬((Mask.bIndices guessed L).length = 1
                  ∨ Mask.bAllBlack results (Mask.bIndices guessed L) = true) from
            ⟨j, List.mem_cons_self _ _, hPj⟩)]
      · have hC : ¬ (charAt results j.val = 'b'
            ∧ ¬((Mask.bIndices guessed (charAt guessed j.val)).length = 1
                ∨ Mask.bAllBlack results
                    (Mask.bIndices guessed (charAt guessed j.val)) = true)
            ∧ charAt guessed j.val = L
            ∧ st.max_occurrences.lookup L = none) :=
          fun h => hPj ⟨h.1, h.2.2.1, by rw [← h.2.2.1]; exact h.2.1⟩
        rw [if_neg hC, if_pos hst, if_pos hst]
        by_cases hrest : ∃ x ∈ rest, charAt results x.val = 'b'
            ∧ charAt guessed x.val = L
            ∧ ¬((Mask.bIndices guessed L).length = 1
                ∨ Mask.bAllBlack results (Mask.bIndices guessed L) = true)
        · obtain ⟨x, hx, hPx⟩ := hrest
          rw [if_pos (show ∃ x ∈ rest, charAt results x.val = 'b'
              ∧ charAt guessed x.val = L
              ∧ ¬((Mask.bIndices guessed L).length = 1
                  ∨ Mask.bAllBlack results (Mask.bIndices guessed L) = true) from
              ⟨x, hx, hPx⟩),
            if_pos (show ∃ x ∈ j :: rest, charAt results x.val = 'b'
              ∧ charAt guessed x.val = L
              ∧ ¬((Mask.bIndices guessed L).length = 1
                  ∨ Mask.bAllBlack results (Mask.bIndices guessed L) = true) from
              ⟨x, List.mem_cons_of_mem _ hx, hPx⟩)]
        · rw [if_neg hrest,
            if_neg (show ¬ ∃ x ∈ j :: rest, charAt results x.val = 'b'
                ∧ charAt guessed x.val = L
                ∧ ¬((Mask.bIndices guessed L).length = 1
                    ∨ Mask.bAllBlack results (Mask.bIndices guessed L) = true) from by
              rintro ⟨x, hx, hPx⟩
              rcases List.mem_cons.mp hx with h' | h'
              · exact hPj (h' ▸ hPx)
              · exact hrest ⟨x, h', hPx⟩)]
    · have hC : ¬ (charAt results j.val = 'b'
          ∧ ¬((Mask.bIndices guessed (charAt guessed j.val)).length = 1
              ∨ Mask.bAllBlack results
                  (Mask.bIndices guessed (charAt guessed j.val)) = true)
          ∧ charAt guessed j.val = L
          ∧ st.max_occurrences.lookup L = none) := fun h => hst h.2.2.2
      rw [if_neg hC, if_neg hst, if_neg hst]

theorem from_wordle_results_eq_ok (guessed results : List Char)
    (hr5 : results.length = 5)
    (hval : ∀ c ∈ results, c = 'g' ∨ c = 'y' ∨ c = 'b')
    (hgl : guessed.map Char.toLower = guessed)
    (hrl : results.map Char.toLower = results) :
    Mask.from_wordle_results guessed results
      = .ok (Mask.from_wordle_results_core guessed results) := by
  unfold Mask.from_wordle_results
  rw [hgl, hrl]
  rw [if_neg (show ¬ results.length ≠ 5 from fun h => h hr5),
    if_neg (show ¬ (results.filter fun c => ¬ (c = 'g' ∨ c = 'y' ∨ c = 'b')) ≠ []
      from fun h => h (List.filter_eq_nil_iff.mpr
        (fun c hc => by
          rcases hval c hc with h' | h' | h' <;> simp [h'])))]

/-- C5: `from_wordle_results` maps each green slot into
`correct_positions`, each yellow slot's letter into that slot's
`incorrect_positions` set, and treats a black slot by letter: the letter
joins `incorrect_globals` exactly when it occurs once in the guessed word
or all of its occurrences are black; otherwise it instead receives
`max_occurrences[letter] =` the count of its non-black occurrences.  The
"slate"/"bbyyb" example yields empty `correct_positions`,
`incorrect_positions` a at slot 3 and t at slot 4 (0-based indices 2, 3),
`incorrect_globals` s, l, e; the "aloha"/"gbgbb" example yields
`max_occurrences` a ↦ 1. -/
theorem from_wordle_results_characterization
    (guessed results : List Char)
    (_hg5 : guessed.length = 5) (hr5 : results.length = 5)
    (hval : ∀ c ∈ results, c = 'g' ∨ c = 'y' ∨ c = 'b')
    (hgl : guessed.map Char.toLower = guessed)
    (hrl : results.map Char.toLower = results) :
    (∃ m, Mask.from_wordle_results guessed results = .ok m
      ∧ (∀ i : Fin 5, m.correct_positions i =
          if charAt results i.val = 'g' then some (charAt guessed i.val) else none)
      ∧ (∀ i : Fin 5, m.incorrect_positions i =
          if charAt results i.val = 'y' then {charAt guessed i.val} else ∅)
      ∧ (∀ L, L ∈ m.incorrect_globals ↔
          ∃ j : Fin 5, charAt results j.val = 'b' ∧ charAt guessed j.val = L
            ∧ ((Mask.bIndices guessed L).length = 1
               ∨ Mask.bAllBlack results (Mask.bIndices guessed L) = true))
      ∧ (∀ L, m.max_occurrences.lookup L =
          if ∃ j : Fin 5, charAt results j.val = 'b' ∧ charAt guessed j.val = L
              ∧ ¬((Mask.bIndices guessed L).length = 1
                  ∨ Mask.bAllBlack results (Mask.bIndices guessed L) = true)
          then some (Mask.bNonBlackCount results (Mask.bIndices guessed L))
          else none))
    ∧ (∃ m, Mask.from_wordle_results "slate".toList "bbyyb".toList = .ok m
        ∧ (∀ i : Fin 5, m.correct_positions i = none)
        ∧ m.incorrect_positions 2 = {'a'} ∧ m.incorrect_positions 3 = {'t'}
        ∧ m.incorrect_positions 0 = ∅ ∧ m.incorrect_positions 1 = ∅
        ∧ m.incorrect_positions 4 = ∅
        ∧ m.incorrect_globals = {'s', 'l', 'e'}
        ∧ m.max_occurrences = [])
    ∧ (∃ m, Mask.from_wordle_results "aloha".toList "gbgbb".toList = .ok m
        ∧ m.max_occurrences = [('a', 1)]) := by
  refine ⟨⟨Mask.from_wordle_results_core guessed results,
    from_wordle_results_eq_ok guessed results hr5 hval hgl hrl,
    ?_, ?_, ?_, ?_⟩, ?_, ?_⟩
  · intro i
    rw [Mask.from_wordle_results_core, fwr_foldl_correct_positions]
    simp [List.mem_finRange]
  · intro i
    rw [Mask.from_wordle_results_core,
      fwr_foldl_incorrect_positions guessed results _ (List.nodup_finRange 5)]
    simp [List.mem_finRange]
  · intro L
    rw [Mask.from_wordle_results_core, fwr_foldl_incorrect_globals]
    simp [List.mem_finRange]
  · intro L
    rw [Mask.from_wordle_results_core, fwr_foldl_max_occurrences,
      if_pos (show List.lookup L ([] : List (Letter × Nat)) = none from rfl)]
    simp [List.mem_finRange]
  · exact ⟨_, rfl, by decide, by decide, by decide, by decide, by decide,
      by decide, by decide, by decide⟩
  · exact ⟨_, rfl, by decide⟩

/-- Witness for `from_wordle_results_characterization` at the
"slate"/"bbyyb" input. -/
theorem from_wordle_results_characterization_witness :
    ("slate".toList.length = 5 ∧ "bbyyb".toList.length = 5
      ∧ (∀ c ∈ "bbyyb".toList, c = 'g' ∨ c = 'y' ∨ c = 'b')
      ∧ "slate".toList.map Char.toLower = "slate".toList
      ∧ "bbyyb".toList.map Char.toLower = "bbyyb".toList)
    ∧ ∃ m, Mask.from_wordle_results "slate".toList "bbyyb".toList = .ok m
      ∧ (∀ i : Fin 5, m.correct_positions i =
          if charAt "bbyyb".toList i.val = 'g'
          then some (charAt "slate".toList i.val) else none)
      ∧ (∀ i : Fin 5, m.incorrect_positions i =
          if charAt "bbyyb".toList i.val = 'y'
          then {charAt "slate".toList i.val} else ∅)
      ∧ (∀ L, L ∈ m.incorrect_globals ↔
          ∃ j : Fin 5, charAt "bbyyb".toList j.val = 'b'
            ∧ charAt "slate".toList j.val = L
            ∧ ((Mask.bIndices "slate".toList L).length = 1
               ∨ Mask.bAllBlack "bbyyb".toList (Mask.bIndices "slate".toList L) = true))
      ∧ (∀ L, m.max_occurrences.lookup L =
          if ∃ j : Fin 5, charAt "bbyyb".toList j.val = 'b'
              ∧ charAt "slate".toList j.val = L
              ∧ ¬((Mask.bIndices "slate".toList L).length = 1
                  ∨ Mask.bAllBlack "bbyyb".toList (Mask.bIndices "slate".toList L) = true)
          then some (Mask.bNonBlackCount "bbyyb".toList (Mask.bIndices "slate".toList L))
          else none) :=
  ⟨⟨by decide, by decide, by decide, by decide, by decide⟩,
   (from_wordle_results_characterization "slate".toList "bbyyb".toList
      (by decide) (by decide) (by decide) (by decide) (by decide)).1⟩

/-!  ### Merge algebra of Masks (claim C6) -/

/-- The empty Mask, Python `Mask()`: no constraints at all. -/
def emptyMask : Mask := ⟨fun _ => none, fun _ => ∅, ∅, []⟩

theorem mem_greens {m : Mask} {L : Letter} :
    L ∈ m.greens ↔ ∃ i, m.correct_positions i = some L := by
  unfold Mask.greens
  simp [Finset.mem_biUnion, Option.mem_toFinset, Option.mem_def]

theorem add_ok_elim {a b r a2 : Mask} (h : Mask.add a b = .ok (r, a2)) :
    Mask.posConflicts a b = [] ∧ Mask.reqConflicts a b = ∅
    ∧ Mask.occConflicts a b = []
    ∧ r = ⟨fun i => optUnionR (a.correct_positions i) (b.correct_positions i),
        Mask.mergedIp a b, a.incorrect_globals ∪ b.incorrect_globals,
        dictUnionR a.max_occurrences b.max_occurrences⟩
    ∧ a2 = { a with incorrect_positions := Mask.mergedIp a b } := by
  have h1 : Mask.posConflicts a b = [] := by
    by_contra h1
    rw [Mask.add, if_pos h1] at h
    cases h
  have h2 : Mask.reqConflicts a b = ∅ := by
    by_contra h2
    rw [Mask.add, if_neg (by simp [h1]), if_pos h2] at h
    cases h
  have h3 : Mask.occConflicts a b = [] := by
    by_contra h3
    rw [Mask.add, if_neg (by simp [h1]), if_neg (by simp [h2]), if_pos h3] at h
    cases h
  rw [Mask.add, if_neg (by simp [h1]), if_neg (by simp [h2]),
    if_neg (by simp [h3])] at h
  injection h with hpair
  injection hpair with hr ha2
  exact ⟨h1, h2, h3, hr.symm, ha2.symm⟩

theorem add_ok_intro (a b : Mask) (h1 : Mask.posConflicts a b = [])
    (h2 : Mask.reqConflicts a b = ∅) (h3 : Mask.occConflicts a b = []) :
    Mask.add a b = .ok
      (⟨fun i => optUnionR (a.correct_positions i) (b.correct_positions i),
        Mask.mergedIp a b, a.incorrect_globals ∪ b.incorrect_globals,
        dictUnionR a.max_occurrences b.max_occurrences⟩,
       { a with incorrect_positions := Mask.mergedIp a b }) := by
  rw [Mask.add, if_neg (by simp [h1]), if_neg (by simp [h2]),
    if_neg (by simp [h3])]

theorem posConflicts_symm_nil {a b : Mask}
    (h : Mask.posConflicts a b = []) : Mask.posConflicts b a = [] := by
  have hag := cp_agree_of_posConflicts_nil h
  unfold Mask.posConflicts
  rw [List.filter_eq_nil_iff]
  intro i _
  rcases hx : b.correct_positions i with _ | x
    <;> rcases hy : a.correct_positions i with _ | y <;> simp
  exact (hag i y x hy hx).symm

theorem reqConflicts_symm_nil {a b : Mask}
    (h : Mask.reqConflicts a b = ∅) : Mask.reqConflicts b a = ∅ := by
  rw [Mask.reqConflicts, Finset.union_comm]
  exact h

theorem occConflicts_symm_nil {a b : Mask}
    (hb : NodupKeys b.max_occurrences)
    (h : Mask.occConflicts a b = []) : Mask.occConflicts b a = [] := by
  have hag := mo_agree_of_occConflicts_nil h
  unfold Mask.occConflicts
  rw [List.filter_eq_nil_iff]
  intro p hp
  obtain ⟨L, x⟩ := p
  have hbl : b.max_occurrences.lookup L = some x := lookup_eq_some_of_mem hb hp
  rcases ha : a.max_occurrences.lookup L with _ | y <;> simp
  exact hag L y x ha hbl

/-- Word acceptance only depends on the Mask's fields up to extensional
equality of the dicts (for `max_occurrences`, lookup-equality of dicts
with distinct keys). -/
theorem is_word_accepted_congr (m m' : Mask) (w : Wd)
    (hcp : ∀ i, m.correct_positions i = m'.correct_positions i)
    (hip : ∀ i, m.incorrect_positions i = m'.incorrect_positions i)
    (hig : m.incorrect_globals = m'.incorrect_globals)
    (hmo : ∀ L, m.max_occurrences.lookup L = m'.max_occurrences.lookup L)
    (hnd : NodupKeys m.max_occurrences)
    (hnd' : NodupKeys m'.max_occurrences) :
    m.is_word_accepted w = m'.is_word_accepted w := by
  have hcpf : m.correct_positions = m'.correct_positions := funext hcp
  have hipf : m.incorrect_positions = m'.incorrect_positions := funext hip
  have hcl : m.correct_letters = m'.correct_letters := by
    unfold Mask.correct_letters Mask.greens
    rw [hcpf, hipf]
  have h5 : (m.max_occurrences.all fun p => p.1 ∈ w.toFinset && w.count p.1 ≤ p.2)
      = (m'.max_occurrences.all fun p => p.1 ∈ w.toFinset && w.count p.1 ≤ p.2) := by
    rw [Bool.eq_iff_iff, List.all_eq_true, List.all_eq_true]
    constructor
    · intro h p hp
      obtain ⟨L, v⟩ := p
      exact h (L, v) (mem_of_lookup_eq_some
        ((hmo L).trans (lookup_eq_some_of_mem hnd' hp)))
    · intro h p hp
      obtain ⟨L, v⟩ := p
      exact h (L, v) (mem_of_lookup_eq_some
        ((hmo L).symm.trans (lookup_eq_some_of_mem hnd hp)))
  unfold Mask.is_word_accepted
  rw [hcpf, hipf, hig, hcl, h5]

theorem optUnionR_assoc (x y z : Option Letter) :
    optUnionR (optUnionR x y) z = optUnionR x (optUnionR y z) := by
  cases z <;> cases y <;> simp [optUnionR]

theorem lookup_dictUnionR_assoc (a b c : List (Letter × Nat)) (L : Letter) :
    (dictUnionR (dictUnionR a b) c).lookup L
      = (dictUnionR a (dictUnionR b c)).lookup L := by
  rw [lookup_dictUnionR, lookup_dictUnionR, lookup_dictUnionR,
    lookup_dictUnionR]
  rcases hA : a.lookup L with _ | x <;> rcases hB : b.lookup L with _ | y
    <;> rcases hC : c.lookup L with _ | z <;> simp

theorem posConflicts_merged_left {a b c : Mask}
    (hac : Mask.posConflicts a c = []) (hbc : Mask.posConflicts b c = []) :
    Mask.posConflicts
      ⟨fun i => optUnionR (a.correct_positions i) (b.correct_positions i),
        Mask.mergedIp a b, a.incorrect_globals ∪ b.incorrect_globals,
        dictUnionR a.max_occurrences b.max_occurrences⟩ c = [] := by
  have hagac := cp_agree_of_posConflicts_nil hac
  have hagbc := cp_agree_of_posConflicts_nil hbc
  unfold Mask.posConflicts
  rw [List.filter_eq_nil_iff]
  intro i _
  rcases hb : b.correct_positions i with _ | y
  · rcases ha : a.correct_positions i with _ | x
    · simp [optUnionR, ha, hb]
    · rcases hc : c.correct_positions i with _ | z
      · simp [optUnionR, ha, hb, hc]
      · simp [optUnionR, ha, hb, hc]
        exact hagac i x z ha hc
  · rcases hc : c.correct_positions i with _ | z
    · simp [optUnionR, hb, hc]
    · simp [optUnionR, hb, hc]
      exact hagbc i y z hb hc

theorem posConflicts_merged_right {a b c : Mask}
    (hab : Mask.posConflicts a b = []) (hac : Mask.posConflicts a c = []) :
    Mask.posConflicts a
      ⟨fun i => optUnionR (b.correct_positions i) (c.correct_positions i),
        Mask.mergedIp b c, b.incorrect_globals ∪ c.incorrect_globals,
        dictUnionR b.max_occurrences c.max_occurrences⟩ = [] := by
  have hagab := cp_agree_of_posConflicts_nil hab
  have hagac := cp_agree_of_posConflicts_nil hac
  unfold Mask.posConflicts
  rw [List.filter_eq_nil_iff]
  intro i _
  rcases ha : a.correct_positions i with _ | x
  · rcases hb : b.correct_positions i with _ | y
      <;> rcases hc : c.correct_positions i with _ | z <;> simp [optUnionR, ha, hb, hc]
  · rcases hc : c.correct_positions i with _ | z
    · rcases hb : b.correct_positions i with _ | y
      · simp [optUnionR, ha, hb, hc]
      · simp [optUnionR, ha, hb, hc]
        exact hagab i x y ha hb
    · simp [optUnionR, ha, hc]
      exact hagac i x z ha hc

theorem reqConflicts_merged_left {a b c : Mask}
    (hac : Mask.reqConflicts a c = ∅) (hbc : Mask.reqConflicts b c = ∅) :
    Mask.reqConflicts
      ⟨fun i => optUnionR (a.correct_positions i) (b.correct_positions i),
        Mask.mergedIp a b, a.incorrect_globals ∪ b.incorrect_globals,
        dictUnionR a.max_occurrences b.max_occurrences⟩ c = ∅ := by
  rw [Mask.reqConflicts, Finset.union_eq_empty] at hac hbc ⊢
  obtain ⟨hac1, hac2⟩ := hac
  obtain ⟨hbc1, hbc2⟩ := hbc
  rw [Finset.eq_empty_iff_forall_not_mem] at hac1 hac2 hbc1 hbc2
  constructor
  · rw [Finset.eq_empty_iff_forall_not_mem]
    intro L hL
    rw [Finset.mem_inter, mem_greens] at hL
    obtain ⟨⟨i, hcp⟩, hig⟩ := hL
    dsimp only at hcp
    rcases hb : b.correct_positions i with _ | y
    · rw [hb] at hcp
      exact hac1 L (Finset.mem_inter.mpr ⟨mem_greens.mpr ⟨i, by
        rw [← hcp]; exact (by simp [optUnionR, hb])⟩, hig⟩)
    · rw [hb] at hcp
      simp only [optUnionR] at hcp
      exact hbc1 L (Finset.mem_inter.mpr ⟨mem_greens.mpr ⟨i, hb.trans hcp⟩, hig⟩)
  · rw [Finset.eq_empty_iff_forall_not_mem]
    intro L hL
    rw [Finset.mem_inter, Finset.mem_union] at hL
    rcases hL.2 with h | h
    · exact hac2 L (Finset.mem_inter.mpr ⟨hL.1, h⟩)
    · exact hbc2 L (Finset.mem_inter.mpr ⟨hL.1, h⟩)

theorem reqConflicts_merged_right {a b c : Mask}
    (hab : Mask.reqConflicts a b = ∅) (hac : Mask.reqConflicts a c = ∅) :
    Mask.reqConflicts a
      ⟨fun i => optUnionR (b.correct_positions i) (c.correct_positions i),
        Mask.mergedIp b c, b.incorrect_globals ∪ c.incorrect_globals,
        dictUnionR b.max_occurrences c.max_occurrences⟩ = ∅ := by
  rw [Mask.reqConflicts, Finset.union_eq_empty] at hab hac ⊢
  obtain ⟨hab1, hab2⟩ := hab
  obtain ⟨hac1, hac2⟩ := hac
  rw [Finset.eq_empty_iff_forall_not_mem] at hab1 hab2 hac1 hac2
  constructor
  · rw [Finset.eq_empty_iff_forall_not_mem]
    intro L hL
    rw [Finset.mem_inter, Finset.mem_union] at hL
    rcases hL.2 with h | h
    · exact hab1 L (Finset.mem_inter.mpr ⟨hL.1, h⟩)
    · exact hac1 L (Finset.mem_inter.mpr ⟨hL.1, h⟩)
  · rw [Finset.eq_empty_iff_forall_not_mem]
    intro L hL
    rw [Finset.mem_inter, mem_greens] at hL
    obtain ⟨⟨i, hcp⟩, hig⟩ := hL
    dsimp only at hcp
    rcases hc : c.correct_positions i with _ | z
    · rw [hc] at hcp
      simp only [optUnionR] at hcp
      exact hab2 L (Finset.mem_inter.mpr ⟨mem_greens.mpr ⟨i, hcp⟩, hig⟩)
    · rw [hc] at hcp
      simp only [optUnionR] at hcp
      exact hac2 L (Finset.mem_inter.mpr ⟨mem_greens.mpr ⟨i, hc.trans hcp⟩, hig⟩)

theorem occConflicts_merged_left {a b c : Mask}
    (ha : NodupKeys a.max_occurrences) (hb : NodupKeys b.max_occurrences)
    (hac : Mask.occConflicts a c = []) (hbc : Mask.occConflicts b c = []) :
    Mask.occConflicts
      ⟨fun i => optUnionR (a.correct_positions i) (b.correct_positions i),
        Mask.mergedIp a b, a.incorrect_globals ∪ b.incorrect_globals,
        dictUnionR a.max_occurrences b.max_occurrences⟩ c = [] := by
  have hagac := mo_agree_of_occConflicts_nil hac
  have hagbc := mo_agree_of_occConflicts_nil hbc
  unfold Mask.occConflicts
  rw [List.filter_eq_nil_iff]
  intro p hp
  obtain ⟨L, v⟩ := p
  have hlk : (dictUnionR a.max_occurrences b.max_occurrences).lookup L = some v :=
    lookup_eq_some_of_mem (nodupKeys_dictUnionR ha hb) hp
  rw [lookup_dictUnionR] at hlk
  rcases hc : c.max_occurrences.lookup L with _ | u
  · simp [hc]
  · simp [hc]
    rcases hA : a.max_occurrences.lookup L with _ | x
    · rw [hA] at hlk
      simp only at hlk
      exact (hagbc L v u hlk hc).symm
    · rw [hA] at hlk
      simp only [Option.some.injEq] at hlk
      rcases hB : b.max_occurrences.lookup L with _ | y
      · rw [hB] at hlk
        simp only [Option.getD_none] at hlk
        exact ((hagac L x u hA hc).symm.trans hlk)
      · rw [hB] at hlk
        simp only [Option.getD_some] at hlk
        exact ((hagbc L y u hB hc).symm.trans hlk)

theorem occConflicts_merged_right {a b c : Mask}
    (ha : NodupKeys a.max_occurrences)
    (hab : Mask.occConflicts a b = []) (hac : Mask.occConflicts a c = []) :
    Mask.occConflicts a
      ⟨fun i => optUnionR (b.correct_positions i) (c.correct_positions i),
        Mask.mergedIp b c, b.incorrect_globals ∪ c.incorrect_globals,
        dictUnionR b.max_occurrences c.max_occurrences⟩ = [] := by
  have hagab := mo_agree_of_occConflicts_nil hab
  have hagac := mo_agree_of_occConflicts_nil hac
  unfold Mask.occConflicts
  rw [List.filter_eq_nil_iff]
  intro p hp
  obtain ⟨L, v⟩ := p
  have hAv : a.max_occurrences.lookup L = some v := lookup_eq_some_of_mem ha hp
  rcases hU : (dictUnionR b.max_occurrences c.max_occurrences).lookup L with _ | u
  · simp [hU]
  · simp [hU]
    rw [lookup_dictUnionR] at hU
    rcases hB : b.max_occurrences.lookup L with _ | y
    · rw [hB] at hU
      simp only at hU
      exact (hagac L v u hAv hU).symm
    · rw [hB] at hU
      rcases hC : c.max_occurrences.lookup L with _ | z
      · rw [hC] at hU
        simp only [Option.getD_none, Option.some.injEq] at hU
        exact ((hagab L v y hAv hB).trans hU).symm
      · rw [hC] at hU
        simp only [Option.getD_some, Option.some.injEq] at hU
        exact ((hagac L v z hAv hC).trans hU).symm

theorem greens_emptyMask : Mask.greens emptyMask = ∅ := by
  ext L
  simp [Mask.greens, emptyMask]

/-- C6: for Masks whose pairwise merges do not conflict, merging is
commutative and associative in filtering effect, and merging with the
empty Mask does not change which words are accepted. -/
theorem mask_merge_filtering_algebra (a b c : Mask) (w : Wd)
    (ha : NodupKeys a.max_occurrences) (hb : NodupKeys b.max_occurrences)
    (hc : NodupKeys c.max_occurrences)
    (hab : ∃ p, Mask.add a b = .ok p)
    (hac : ∃ p, Mask.add a c = .ok p)
    (hbc : ∃ p, Mask.add b c = .ok p) :
    (∃ rab a2 rba b2, Mask.add a b = .ok (rab, a2)
      ∧ Mask.add b a = .ok (rba, b2)
      ∧ rab.is_word_accepted w = rba.is_word_accepted w)
    ∧ (∃ rab a2 rbc b2 l x r y,
        Mask.add a b = .ok (rab, a2) ∧ Mask.add b c = .ok (rbc, b2)
        ∧ Mask.add rab c = .ok (l, x) ∧ Mask.add a rbc = .ok (r, y)
        ∧ l.is_word_accepted w = r.is_word_accepted w)
    ∧ (∃ rae a2, Mask.add a emptyMask = .ok (rae, a2)
        ∧ rae.is_word_accepted w = a.is_word_accepted w)
    ∧ (∃ rea e2, Mask.add emptyMask a = .ok (rea, e2)
        ∧ rea.is_word_accepted w = a.is_word_accepted w) := by
  obtain ⟨⟨rab, sab⟩, habk⟩ := hab
  obtain ⟨⟨rac, sac⟩, hack⟩ := hac
  obtain ⟨⟨rbc, sbc⟩, hbck⟩ := hbc
  obtain ⟨h1ab, h2ab, h3ab, hrab, -⟩ := add_ok_elim habk
  obtain ⟨h1ac, h2ac, h3ac, hrac, -⟩ := add_ok_elim hack
  obtain ⟨h1bc, h2bc, h3bc, hrbc, -⟩ := add_ok_elim hbck
  subst hrab
  subst hrbc
  have hagab := cp_agree_of_posConflicts_nil h1ab
  have hmoab := mo_agree_of_occConflicts_nil h3ab
  refine ⟨?_, ?_, ?_, ?_⟩
  · -- commutativity in filtering effect
    refine ⟨_, _, _, _, habk,
      add_ok_intro b a (posConflicts_symm_nil h1ab)
        (reqConflicts_symm_nil h2ab) (occConflicts_symm_nil hb h3ab), ?_⟩
    apply is_word_accepted_congr
    · intro i
      dsimp only
      rcases hA : a.correct_positions i with _ | x
        <;> rcases hB : b.correct_positions i with _ | y
        <;> simp [optUnionR]
      exact (hagab i x y hA hB).symm
    · intro i
      exact Finset.union_comm _ _
    · exact Finset.union_comm _ _
    · intro L
      dsimp only
      rw [lookup_dictUnionR, lookup_dictUnionR]
      rcases hA : a.max_occurrences.lookup L with _ | x
        <;> rcases hB : b.max_occurrences.lookup L with _ | y <;> simp
      exact (hmoab L x y hA hB).symm
    · exact nodupKeys_dictUnionR ha hb
    · exact nodupKeys_dictUnionR hb ha
  · -- associativity in filtering effect
    refine ⟨_, _, _, _, _, _, _, _, habk, hbck,
      add_ok_intro _ c (posConflicts_merged_left h1ac h1bc)
        (reqConflicts_merged_left h2ac h2bc)
        (occConflicts_merged_left ha hb h3ac h3bc),
      add_ok_intro a _ (posConflicts_merged_right h1ab h1ac)
        (reqConflicts_merged_right h2ab h2ac)
        (occConflicts_merged_right ha h3ab h3ac), ?_⟩
    apply is_word_accepted_congr
    · intro i
      exact optUnionR_assoc _ _ _
    · intro i
      exact Finset.union_assoc _ _ _
    · exact Finset.union_assoc _ _ _
    · intro L
      exact lookup_dictUnionR_assoc _ _ _ _
    · exact nodupKeys_dictUnionR (nodupKeys_dictUnionR ha hb) hc
    · exact nodupKeys_dictUnionR ha (nodupKeys_dictUnionR hb hc)
  · -- right identity
    have hpe : Mask.posConflicts a emptyMask = [] := by
      unfold Mask.posConflicts
      rw [List.filter_eq_nil_iff]
      intro i _
      rcases hA : a.correct_positions i with _ | x <;> simp [emptyMask, hA]
    have hre : Mask.reqConflicts a emptyMask = ∅ := by
      rw [Mask.reqConflicts, greens_emptyMask]
      simp [emptyMask]
    have hoe : Mask.occConflicts a emptyMask = [] := by
      unfold Mask.occConflicts
      rw [List.filter_eq_nil_iff]
      intro p _
      simp [emptyMask]
    refine ⟨_, _, add_ok_intro a emptyMask hpe hre hoe, ?_⟩
    apply is_word_accepted_congr
    · intro i
      dsimp only
      rcases hA : a.correct_positions i with _ | x <;> simp [optUnionR, emptyMask]
    · intro i
      dsimp only [Mask.mergedIp]
      show a.incorrect_positions i ∪ emptyMask.incorrect_positions i = _
      simp [emptyMask]
    · show a.incorrect_globals ∪ emptyMask.incorrect_globals = _
      simp [emptyMask]
    · intro L
      dsimp only
      rw [lookup_dictUnionR]
      rcases hA : a.max_occurrences.lookup L with _ | x <;> simp [emptyMask, hA]
    · exact nodupKeys_dictUnionR ha (by simp [emptyMask, NodupKeys])
    · exact ha
  · -- left identity
    have hpe : Mask.posConflicts emptyMask a = [] := by
      unfold Mask.posConflicts
      rw [List.filter_eq_nil_iff]
      intro i _
      simp [emptyMask]
    have hre : Mask.reqConflicts emptyMask a = ∅ := by
      rw [Mask.reqConflicts, greens_emptyMask]
      simp [emptyMask]
    have hoe : Mask.occConflicts emptyMask a = [] := by
      unfold Mask.occConflicts
      rw [List.filter_eq_nil_iff]
      intro p hp
      simp [emptyMask] at hp
    refine ⟨_, _, add_ok_intro emptyMask a hpe hre hoe, ?_⟩
    apply is_word_accepted_congr
    · intro i
      dsimp only
      rcases hA : a.correct_positions i with _ | x <;> simp [optUnionR, emptyMask, hA]
    · intro i
      dsimp only [Mask.mergedIp]
      show emptyMask.incorrect_positions i ∪ a.incorrect_positions i = _
      simp [emptyMask]
    · show emptyMask.incorrect_globals ∪ a.incorrect_globals = _
      simp [emptyMask]
    · intro L
      dsimp only
      rw [lookup_dictUnionR]
      rcases hA : a.max_occurrences.lookup L with _ | x <;> simp [emptyMask, hA]
    · exact nodupKeys_dictUnionR (by simp [emptyMask, NodupKeys]) ha
    · exact ha

/-- Witness for `mask_merge_filtering_algebra` at concrete Masks. -/
theorem mask_merge_filtering_algebra_witness :
    (NodupKeys mutB.max_occurrences ∧ NodupKeys emptyMask.max_occurrences)
    ∧ ∃ rab a2 rba b2, Mask.add mutB emptyMask = .ok (rab, a2)
        ∧ Mask.add emptyMask mutB = .ok (rba, b2)
        ∧ rab.is_word_accepted "ratio".toList
          = rba.is_word_accepted "ratio".toList :=
  ⟨⟨by decide, by decide⟩,
   (mask_merge_filtering_algebra mutB emptyMask emptyMask "ratio".toList
      (by decide) (by decide) (by decide) ⟨_, rfl⟩ ⟨_, rfl⟩ ⟨_, rfl⟩).1⟩

/-!  ## WordList scoring and the solver (source lines 142-308, 580-637)

The solver consumes word scores only through order comparisons and a
stable descending sort.  `calculate_letter_frequency` rounds each letter's
share to 5 decimal places (`round(count / total, 5)`, Python banker's
rounding); `calculate_score` multiplies a sum of such values by 100 and
rounds to 3 decimals, which is exact on 5-decimal inputs.  The embedding
therefore carries frequencies as exact naturals scaled by 10^5, and a
word's score (scaled by 10^3) is the plain sum of its unique letters'
scaled frequencies; every score comparison the source makes coincides
with the comparison of these integers. -/

/-- Round-half-to-even division, the exact value of Python's
`round(a / b)` on naturals. -/
def halfEvenDiv (a b : Nat) : Nat :=
  if 2 * (a % b) < b then a / b
  else if b < 2 * (a % b) then a / b + 1
  else if (a / b) % 2 = 0 then a / b else a / b + 1

/-- Embedding of `WordList.calculate_letter_frequency` (source lines
267-290): the letter's share of all letter slots, rounded to 5 decimals
and scaled by 10^5; an empty list maps every letter to 0. -/
def calculate_letter_frequency (words : List Wd) (c : Letter) : Nat :=
  if words.isEmpty then 0
  else halfEvenDiv ((words.map fun w => w.count c).sum * 100000)
    (words.length * 5)

/-- Embedding of `Word.calculate_score` against a frequency table (source
lines 88-96): the table's values summed over the word's unique letters
(scaled; the `* 100` and `round(_, 3)` of the source only rescale). -/
def calculate_score (w : Wd) (freq : Letter → Nat) : Nat :=
  w.toFinset.sum freq

/-- Stable insertion for the descending sort: a word inserted later goes
after every word of score at least as high, exactly as Python's stable
`list.sort(reverse = True)` places it. -/
def insertDesc (key : Wd → Nat) (x : Wd) : List Wd → List Wd
  | [] => [x]
  | y :: ys => if key y < key x then x :: y :: ys else y :: insertDesc key x ys

/-- Embedding of `WordList.frequency_sort` (source lines 234-243): the
stable descending sort by score against the list's own letter frequency.
A stable sort is uniquely determined by its key, so this insertion sort
computes the exact order Python's stable sort produces. -/
def frequency_sort (words : List Wd) : List Wd :=
  words.foldl
    (fun acc x =>
      insertDesc (fun w => calculate_score w (calculate_letter_frequency words)) x acc)
    []

/-- Embedding of `WordList.calculate_best_freqsort_word` (source lines
245-249).  `frequency_sort` reorders the list in place, so the embedding
returns the sorted list alongside its head.  (`self[0]` on an empty list
would raise `IndexError`; the dummy `[]` is never reached in the runs
evaluated here.) -/
def calculate_best_freqsort_word (words : List Wd) : Wd × List Wd :=
  (frequency_sort words |>.headD [], frequency_sort words)

/-- The fold `total_mask += mask` over the remaining masks (source lines
262-264); after the first addition the mutated self-states are fresh
intermediate totals that nothing else references, so only the resulting
total is kept. -/
def applyMasksFold (total : Mask) : List Mask → Except MergeError Mask
  | [] => .ok total
  | m :: rest =>
    match Mask.add total m with
    | .error e => .error e
    | .ok (t, _) => applyMasksFold t rest

/-- Embedding of `WordList.apply_masks` (source lines 251-265).  With two
or more masks, `total_mask = masks[0]` followed by `total_mask += masks[1]`
executes `masks[0].__add__(masks[1])`, which mutates
`masks[0].incorrect_positions` in place; the embedding returns the
filtered list together with the post-state of the mask list (head
replaced by its mutated state).  A merge conflict propagates as the
error. -/
def apply_masks (masks : List Mask) (words : List Wd) :
    Except MergeError (List Wd × List Mask) :=
  match masks with
  | [] => .ok (words, [])
  | [m] => .ok (m.filter_words words, [m])
  | m0 :: m1 :: rest =>
    match Mask.add m0 m1 with
    | .error e => .error e
    | .ok (t1, m0mut) =>
      match applyMasksFold t1 rest with
      | .error e => .error e
      | .ok total => .ok (total.filter_words words, m0mut :: m1 :: rest)

/-- The abnormal outcomes of `solve_wordle`: a mask merge conflict (the
`ValueError` of `Mask.__add__`), the stuck-state `RuntimeError` of source
lines 627-632 — whose message interpolates exactly the accumulated masks
and the remaining candidate words, carried here as the payload — the
validation `ValueError` of `from_wordle_results` (unreachable on scored
results, kept for totality), and exhaustion of the fuel that models the
unbounded `while True` loop. -/
inductive SolveErr where
  | conflict (e : MergeError)
  | stuck (masks : List Mask) (possible : List Wd)
  | invalidResults (msg : String)
  | fuel

/-- Outcome of one iteration of the `while True` loop. -/
inductive StepOut where
  | solved (numGuesses : Nat)
  | failed (e : SolveErr)
  | next (guess : Wd) (masks : List Mask) (possible : List Wd)

/-- Tail of the loop body after the two filterings (source lines 626-637):
the stuck check, then the explore/exploit choice of the next guess (the
sort of `possible_words` in the exploit branch persists in its order). -/
def solveIterCont2 (target : Wd) (pw : List Wd) (ms2 : List Mask)
    (iw : List Wd) : StepOut :=
  if pw = [] ∨ (pw.length = 1 ∧ ¬ pw.toFinset = {target}) then
    .failed (.stuck ms2 pw)
  else if 20 ≤ pw.length ∧ 10 ≤ iw.length then
    .next (calculate_best_freqsort_word iw).1 ms2 pw
  else
    .next (calculate_best_freqsort_word pw).1 ms2
      (calculate_best_freqsort_word pw).2

/-- The information-view filtering of source line 619 (computed from the
already-refiltered `possible_words` and the accumulated — possibly
mutated — masks), feeding `solveIterCont2`. -/
def solveIterCont1 (target : Wd) (pw : List Wd) (ms2 : List Mask) : StepOut :=
  match apply_masks (ms2.map Mask.info_guess_version) pw with
  | .error e => .failed (.conflict e)
  | .ok (iw, _) => solveIterCont2 target pw ms2 iw

/-- One iteration of the `while True` loop of `solve_wordle` (source lines
605-637), entered with `numGuesses` already incremented. -/
def solveIter (target : Wd) (numGuesses : Nat) (guess : Wd)
    (masks : List Mask) (possible : List Wd) : StepOut :=
  if guess = target then .solved numGuesses
  else
    match Mask.from_wordle_results guess (calculate_guess_results target guess) with
    | .error msg => .failed (.invalidResults msg)
    | .ok nm =>
      match apply_masks (masks ++ [nm]) possible with
      | .error e => .failed (.conflict e)
      | .ok (pw, ms2) => solveIterCont1 target pw ms2

/-- The `while True` loop, with fuel (a modelling artifact: the runs
evaluated here finish long before the fuel runs out). -/
def solveLoop (target : Wd) : Nat → Nat → Wd → List Mask → List Wd →
    Except SolveErr Nat
  | 0, _, _, _, _ => .error .fuel
  | fuel + 1, numGuesses, guess, masks, possible =>
    match solveIter target (numGuesses + 1) guess masks possible with
    | .solved n => .ok n
    | .failed e => .error e
    | .next g m p => solveLoop target fuel (numGuesses + 1) g m p

/-- Embedding of `solve_wordle` (source lines 580-637).  The vocabulary is
copied on entry (line 602): the copy is what gets sorted and refiltered,
and the second component of the result is the vocabulary's state after
the run. -/
def solve_wordle (target : Wd) (all_words : List Wd)
    (starting_word : Option Wd) : Except SolveErr Nat × List Wd :=
  let gp := match starting_word with
    | some wstart => (wstart, all_words)
    | none => calculate_best_freqsort_word all_words
  (solveLoop target (all_words.length + 2) 0 gp.1 [] gp.2, all_words)

/-- The crash vocabulary: five valid 5-letter entries ("Word" only checks
the length).  Against the secret "tepid" the solver guesses "eexed"
(highest frequency score), then "zeoed"; the two guesses produce the caps
e ↦ 2 and e ↦ 1 respectively — a disagreement rooted in the
green-after-exhaustion scoring of `calculate_guess_results` — so the next
`apply_masks` fold raises the merge `ValueError`. -/
def crashVocab : List Wd :=
  ["tepid".toList, "eexed".toList, "zeoed".toList, "zeozd".toList,
   "xxxxx".toList]

/-- C7 fails on the code: for the vocabulary `crashVocab`, which contains
the secret "tepid", `solve_wordle` does not return a guess count at all:
it terminates with the mask-merge `ValueError` (conflicting occurrence
caps for the letter e), an error distinct from the unsolvable-state
`RuntimeError`. -/
theorem solve_wordle_crashes_on_vocab_member :
    "tepid".toList ∈ crashVocab
    ∧ (solve_wordle "tepid".toList crashVocab none).1
        = .error (.conflict (.occurrences ['e'])) :=
  ⟨by decide, rfl⟩

/-!  ### The stuck check of the solve loop (claim C8) -/

theorem solveIter_eq_solved {target guess : Wd} {n : Nat}
    {masks : List Mask} {possible : List Wd} (h : guess = target) :
    solveIter target n guess masks possible = .solved n := by
  unfold solveIter
  rw [if_pos h]

theorem solveIter_eq_invalid {target guess : Wd} {n : Nat}
    {masks : List Mask} {possible : List Wd} {msg : String}
    (hgt : ¬ guess = target)
    (hfwr : Mask.from_wordle_results guess (calculate_guess_results target guess)
      = .error msg) :
    solveIter target n guess masks possible = .failed (.invalidResults msg) := by
  unfold solveIter
  rw [if_neg hgt, hfwr]

theorem solveIter_eq_conflict {target guess : Wd} {n : Nat}
    {masks : List Mask} {possible : List Wd} {nm : Mask} {e : MergeError}
    (hgt : ¬ guess = target)
    (hfwr : Mask.from_wordle_results guess (calculate_guess_results target guess)
      = .ok nm)
    (happ : apply_masks (masks ++ [nm]) possible = .error e) :
    solveIter target n guess masks possible = .failed (.conflict e) := by
  unfold solveIter
  rw [if_neg hgt, hfwr]
  show (match apply_masks (masks ++ [nm]) possible with
    | .error e => StepOut.failed (.conflict e)
    | .ok (pw, ms2) => solveIterCont1 target pw ms2) = _
  rw [happ]

theorem solveIter_eq_cont {target guess : Wd} {n : Nat}
    {masks : List Mask} {possible : List Wd} {nm : Mask} {pw : List Wd}
    {ms2 : List Mask}
    (hgt : ¬ guess = target)
    (hfwr : Mask.from_wordle_results guess (calculate_guess_results target guess)
      = .ok nm)
    (happ : apply_masks (masks ++ [nm]) possible = .ok (pw, ms2)) :
    solveIter target n guess masks possible = solveIterCont1 target pw ms2 := by
  unfold solveIter
  rw [if_neg hgt, hfwr]
  show (match apply_masks (masks ++ [nm]) possible with
    | .error e => StepOut.failed (.conflict e)
    | .ok (pw, ms2) => solveIterCont1 target pw ms2) = _
  rw [happ]

theorem solveIterCont1_eq (target : Wd) {pw : List Wd} {ms2 : List Mask}
    {iw : List Wd} {msI : List Mask}
    (hinfo : apply_masks (ms2.map Mask.info_guess_version) pw = .ok (iw, msI)) :
    solveIterCont1 target pw ms2 = solveIterCont2 target pw ms2 iw := by
  unfold solveIterCont1
  rw [hinfo]

/-- Masks with no green requirements and no occurrence caps — the shape of
every information-view Mask; merging two of them never conflicts. -/
def NoCpMo (m : Mask) : Prop :=
  (∀ i, m.correct_positions i = none) ∧ m.max_occurrences = []

theorem noCpMo_info (m : Mask) : NoCpMo (Mask.info_guess_version m) :=
  ⟨fun _ => rfl, rfl⟩

theorem add_noCpMo_ok {m m' : Mask} (hm : NoCpMo m) (hm' : NoCpMo m') :
    ∃ r s, Mask.add m m' = .ok (r, s) ∧ NoCpMo r := by
  have hg : m.greens = ∅ := by
    ext L
    simp [mem_greens, hm.1]
  have hg' : m'.greens = ∅ := by
    ext L
    simp [mem_greens, hm'.1]
  have h1 : Mask.posConflicts m m' = [] := by
    unfold Mask.posConflicts
    rw [List.filter_eq_nil_iff]
    intro i _
    simp [hm.1 i, hm'.1 i]
  have h2 : Mask.reqConflicts m m' = ∅ := by
    rw [Mask.reqConflicts, hg, hg']
    simp
  have h3 : Mask.occConflicts m m' = [] := by
    unfold Mask.occConflicts
    rw [hm.2]
    rfl
  refine ⟨_, _, add_ok_intro m m' h1 h2 h3, ?_, ?_⟩
  · intro i
    dsimp only
    rw [hm.1 i, hm'.1 i]
    rfl
  · dsimp only
    rw [hm.2, hm'.2]
    rfl

theorem applyMasksFold_noCpMo_ok :
    ∀ (rest : List Mask) (t : Mask), NoCpMo t → (∀ m ∈ rest, NoCpMo m) →
      ∃ r, applyMasksFold t rest = .ok r := by
  intro rest
  induction rest with
  | nil => intro t _ _; exact ⟨t, rfl⟩
  | cons m ms ih =>
    intro t ht hall
    obtain ⟨r, s, hk, hr⟩ := add_noCpMo_ok ht (hall m (List.mem_cons_self _ _))
    obtain ⟨r2, hr2⟩ := ih r hr (fun m' h' => hall m' (List.mem_cons_of_mem _ h'))
    refine ⟨r2, ?_⟩
    unfold applyMasksFold
    rw [hk]
    exact hr2

theorem apply_masks_ok_of_all_noCpMo (ms : List Mask) (wl : List Wd)
    (hall : ∀ m ∈ ms, NoCpMo m) :
    ∃ x, apply_masks ms wl = .ok x := by
  rcases ms with _ | ⟨m0, _ | ⟨m1, rest⟩⟩
  · exact ⟨_, rfl⟩
  · exact ⟨_, rfl⟩
  · obtain ⟨t1, s1, hk, ht1⟩ := add_noCpMo_ok (hall m0 (by simp))
      (hall m1 (by simp))
    obtain ⟨r, hr⟩ := applyMasksFold_noCpMo_ok rest t1 ht1
      (fun m hm => hall m (by simp [hm]))
    refine ⟨(r.filter_words wl, s1 :: m1 :: rest), ?_⟩
    unfold apply_masks
    show (match m0.add m1 with
      | Except.error e => Except.error e
      | Except.ok (t1, m0mut) =>
        match applyMasksFold t1 rest with
        | Except.error e => Except.error e
        | Except.ok total => .ok (total.filter_words wl, m0mut :: m1 :: rest)) = _
    rw [hk]
    show (match applyMasksFold t1 rest with
      | .error e => Except.error e
      | .ok total => .ok (total.filter_words wl, s1 :: m1 :: rest)) = _
    rw [hr]

/-- C8 holds: in one iteration of the solve loop, after refiltering by the
accumulated masks (the appended list that `apply_masks` returns together
with the filtered pool), the unsolvable-state error is raised exactly when
the surviving candidate pool is empty or consists of a single word other
than the secret; when it is raised, its payload is exactly the accumulated
mask list and the remaining candidates; and `solve_wordle` returns the
input vocabulary unchanged whatever the outcome of the attempt. -/
theorem solve_step_stuck_iff (target guess : Wd) (n : Nat)
    (masks : List Mask) (possible : List Wd) :
    ((∃ ms pw, solveIter target n guess masks possible
        = .failed (.stuck ms pw))
      ↔ (¬ guess = target ∧ ∃ nm pw ms,
          Mask.from_wordle_results guess (calculate_guess_results target guess)
            = .ok nm
          ∧ apply_masks (masks ++ [nm]) possible = .ok (pw, ms)
          ∧ (pw = [] ∨ (pw.length = 1 ∧ ¬ pw.toFinset = {target}))))
    ∧ (∀ ms pw, solveIter target n guess masks possible
          = .failed (.stuck ms pw) →
        ∃ nm, Mask.from_wordle_results guess (calculate_guess_results target guess)
            = .ok nm
          ∧ apply_masks (masks ++ [nm]) possible = .ok (pw, ms))
    ∧ ∀ (V : List Wd) (s : Option Wd), (solve_wordle target V s).2 = V := by
  by_cases hgt : guess = target
  · refine ⟨?_, ?_, fun V s => rfl⟩
    · rw [solveIter_eq_solved hgt]
      constructor
      · rintro ⟨ms, pw, h⟩
        exact StepOut.noConfusion h
      · rintro ⟨hne, -⟩
        exact absurd hgt hne
    · intro ms pw h
      rw [solveIter_eq_solved hgt] at h
      exact StepOut.noConfusion h
  · rcases hfwr : Mask.from_wordle_results guess (calculate_guess_results target guess)
      with msg | nm
    · refine ⟨?_, ?_, fun V s => rfl⟩
      · rw [solveIter_eq_invalid hgt hfwr]
        constructor
        · rintro ⟨ms, pw, h⟩
          injection h with h'
          exact SolveErr.noConfusion h'
        · rintro ⟨-, nm, pw, ms, hok, -⟩
          exact Except.noConfusion hok
      · intro ms pw h
        rw [solveIter_eq_invalid hgt hfwr] at h
        injection h with h'
        exact SolveErr.noConfusion h'
    · rcases happ : apply_masks (masks ++ [nm]) possible with e | ⟨pw, ms2⟩
      · refine ⟨?_, ?_, fun V s => rfl⟩
        · rw [solveIter_eq_conflict hgt hfwr happ]
          constructor
          · rintro ⟨ms, pw, h⟩
            injection h with h'
            exact SolveErr.noConfusion h'
          · rintro ⟨-, nm', pw, ms, hok, happ', -⟩
            injection hok with hnm
            subst hnm
            rw [happ] at happ'
            exact Except.noConfusion happ'
        · intro ms pw h
          rw [solveIter_eq_conflict hgt hfwr happ] at h
          injection h with h'
          exact SolveErr.noConfusion h'
      · obtain ⟨x, hinfo⟩ := apply_masks_ok_of_all_noCpMo
          (ms2.map Mask.info_guess_version) pw
          (fun m hm => by
            obtain ⟨m0, -, rfl⟩ := List.mem_map.mp hm
            exact noCpMo_info m0)
        obtain ⟨iw, msI⟩ := x
        have hstep := solveIter_eq_cont (n := n) hgt hfwr happ
        have hcont := solveIterCont1_eq target hinfo
        by_cases hstuck : pw = [] ∨ (pw.length = 1 ∧ ¬ pw.toFinset = {target})
        · refine ⟨?_, ?_, fun V s => rfl⟩
          · rw [hstep, hcont]
            unfold solveIterCont2
            rw [if_pos hstuck]
            constructor
            · intro _
              exact ⟨hgt, nm, pw, ms2, rfl, happ, hstuck⟩
            · intro _
              exact ⟨ms2, pw, rfl⟩
          · intro ms pw' h
            rw [hstep, hcont] at h
            unfold solveIterCont2 at h
            rw [if_pos hstuck] at h
            injection h with h'
            injection h' with h1 h2
            subst h1
            subst h2
            exact ⟨nm, rfl, happ⟩
        · refine ⟨?_, ?_, fun V s => rfl⟩
          · rw [hstep, hcont]
            unfold solveIterCont2
            rw [if_neg hstuck]
            constructor
            · rintro ⟨ms, pw', h⟩
              split_ifs at h
            · rintro ⟨-, nm', pw', ms', hok, happ', hstuck'⟩
              injection hok with hnm
              subst hnm
              rw [happ] at happ'
              injection happ' with hp
              injection hp with hp1 hp2
              subst hp1
              subst hp2
              exact absurd hstuck' hstuck
          · intro ms pw' h
            rw [hstep, hcont] at h
            unfold solveIterCont2 at h
            rw [if_neg hstuck] at h
            split_ifs at h

/-- The stuck characterization, instantiated: guessing "qqqqq" against
secret "tepid" with an empty candidate pool leaves the pool empty, so the
iteration ends in the unsolvable state. -/
theorem solve_step_stuck_iff_witness :
    ∃ ms pw, solveIter "tepid".toList 1 "qqqqq".toList [] []
      = .failed (.stuck ms pw) :=
  (solve_step_stuck_iff "tepid".toList "qqqqq".toList 1 [] []).1.mpr
    ⟨by decide, _, _, _, rfl, rfl, Or.inl rfl⟩
